import Mathlib
/-!
# Verification of the crossword CSP solver (`src/beta.py`, class `CrosswordCreator`)

Shallow embedding of the solving engine: the Domain Store, the Consistency
Engine (node consistency and AC-3) and the backtracking Search Engine.

Python strings are modelled as `List Char`, Python dicts as association
lists (insertion-ordered, like Python dicts), Python sets as duplicate-free
lists whose order stands for the set's iteration order.  Fallible Python
code (statements that can raise `KeyError`, `ZeroDivisionError`,
`IndexError`, `TypeError`) is modelled in `Except String`; the error string
names the Python exception class that the corresponding statement raises.

The `Crossword` / `Variable` collaborator (`from crossword import *`) is not
part of the repository snapshot; it is modelled from the spec (sections 3
and 6): slots identified by (direction, row, column, length), a symmetric
overlap map holding an offset pair for every ordered crossing pair, a
derived neighbor relation, and the vocabulary.
-/
set_option linter.unusedVariables false

instance {ε α : Type} [DecidableEq ε] [DecidableEq α] : DecidableEq (Except ε α) := fun a b =>
  match a, b with
  | .ok x, .ok y =>
      if h : x = y then .isTrue (by rw [h]) else .isFalse (by intro hc; cases hc; exact h rfl)
  | .error x, .error y =>
      if h : x = y then .isTrue (by rw [h]) else .isFalse (by intro hc; cases hc; exact h rfl)
  | .ok _, .error _ => .isFalse (by intro hc; cases hc)
  | .error _, .ok _ => .isFalse (by intro hc; cases hc)

/-- Modelled from the spec: a slot direction, `Variable.ACROSS` / `Variable.DOWN`. -/
inductive Direction : Type
  | across : Direction
  | down : Direction
deriving DecidableEq, Repr

/-- Modelled from the spec (section 3): a slot, the `Variable` value type of the
missing `crossword` module — identified by (direction, start row `i`, start
column `j`, length), with structural equality, usable as a mapping key. -/
structure Variable where
  direction : Direction
  i : Nat
  j : Nat
  length : Nat
deriving DecidableEq, Repr

/-- A Python string (a candidate word). -/
abbrev Word := List Char

/-- A Python dict mapping slots to words (the Search Engine's assignment),
as an insertion-ordered association list with unique keys. -/
abbrev Assign := List (Variable × Word)

/-- The Domain Store `self.domains`: a dict mapping each slot to the list
(set) of still-possible words. -/
abbrev Domains := List (Variable × List Word)

/-- Modelled from the spec (sections 3 and 6): the Puzzle Definition
collaborator, class `Crossword` of the missing `crossword` module.
`overlaps` stores, for every ordered pair of distinct crossing slots, the
offset pair `(i, j)` meaning "character `i` of the first slot equals
character `j` of the second"; non-crossing pairs have no entry. -/
structure Crossword where
  vars : List Variable
  words : List Word
  overlaps : List ((Variable × Variable) × (Nat × Nat))
deriving Repr

/-- Modelled from the spec (section 6): `crossword.overlaps[x, y]`, an
optional character-offset pair, `none` when `x` and `y` do not cross. -/
def overlapLookup (cw : Crossword) (x y : Variable) : Option (Nat × Nat) :=
  (cw.overlaps.find? (fun e => decide (e.1 = (x, y)))).map (·.2)

/-- Modelled from the spec (sections 3 and 6): `crossword.neighbors(x)`, the
slots crossing `x`, derived from the overlap map; listed in the fixed slot
enumeration order. -/
def neighbors (cw : Crossword) (x : Variable) : List Variable :=
  cw.vars.filter (fun z => (overlapLookup cw x z).isSome)

/-- Constructor `CrosswordCreator.__init__`: `self.domains = {var: words.copy() for var in variables}`. -/
def initDomains (cw : Crossword) : Domains :=
  cw.vars.map (fun v => (v, cw.words))

/-- The default AC-3 worklist: `[x for x in self.crossword.overlaps.keys()]`
(every directed arc of the overlap map). -/
def initArcs (cw : Crossword) : List (Variable × Variable) :=
  cw.overlaps.map (·.1)

/-- Well-formedness of the Puzzle Definition (spec sections 3, 6, 7): slots,
vocabulary and overlap keys are duplicate-free sets; every overlap entry
relates two distinct slots of the puzzle, its offsets are within the slots'
lengths, and the map is symmetric (`offset(x,y) = (i,j)` implies
`offset(y,x) = (j,i)`). -/
def WF (cw : Crossword) : Prop :=
  cw.vars.Nodup ∧ cw.words.Nodup ∧ (cw.overlaps.map (·.1)).Nodup ∧
    ∀ e ∈ cw.overlaps,
      e.1.1 ∈ cw.vars ∧ e.1.2 ∈ cw.vars ∧ e.1.1 ≠ e.1.2 ∧
      e.2.1 < e.1.1.length ∧ e.2.2 < e.1.2.length ∧
      overlapLookup cw e.1.2 e.1.1 = some (e.2.2, e.2.1)

instance (cw : Crossword) : Decidable (WF cw) := by
  unfold WF; infer_instance

/-- Lookup `self.domains[x]` (the claims only exercise this on present keys;
a missing key, which would raise `KeyError`, yields `[]`). -/
def domOf (doms : Domains) (x : Variable) : List Word :=
  match doms.find? (fun p => decide (p.1 = x)) with
  | some p => p.2
  | none => []

/-- Assignment `self.domains[x] = ws`: update the (first) entry for key `x` in place. -/
def updD : Domains → Variable → List Word → Domains
  | [], _, _ => []
  | p :: rest, x, ws => if p.1 = x then (x, ws) :: rest else p :: updD rest x ws

/-- Lookup `assignment[v]` as an option (`none` when `v` is not a key). -/
def alookup (a : Assign) (v : Variable) : Option Word :=
  (a.find? (fun p => decide (p.1 = v))).map (·.2)

/-- Test `v in assignment`. -/
def aHas (a : Assign) (v : Variable) : Bool :=
  (alookup a v).isSome

/-- Statement `assignment[v] = w`: dict assignment — update the entry in place if the
key is present, append it otherwise. -/
def dinsert : Assign → Variable → Word → Assign
  | [], v, w => [(v, w)]
  | p :: rest, v, w => if p.1 = v then (v, w) :: rest else p :: dinsert rest v w

/-- Number of slots not yet assigned (the measure of the backtracking
recursion). -/
def count (cw : Crossword) (a : Assign) : Nat :=
  (cw.vars.filter (fun v => !(aHas a v))).length

/-- Python `set.remove`: removes the element, raising `KeyError` when absent. -/
def sremove (s : List Word) (w : Word) : Except String (List Word) :=
  if w ∈ s then .ok (s.erase w) else .error "KeyError"

/-- Inner loop of `enforce_node_consistency` for one slot `key`:
`for val in crossword.words.copy(): if not key.length == len(val): domains[key].remove(val)`. -/
def encVar (words : List Word) (key : Variable) (dom : List Word) : Except String (List Word) :=
  words.foldlM (fun d w => if key.length = w.length then .ok d else sremove d w) dom

/-- Method `enforce_node_consistency`: for every slot, remove every vocabulary word
whose length differs from the slot's length (mutating the Domain Store,
slot by slot in enumeration order). -/
def enforce_node_consistency (cw : Crossword) (doms : Domains) : Except String Domains :=
  doms.mapM (fun p => do
    let d ← encVar cw.words p.1 p.2
    return (p.1, d))

def alookup_nil (v : Variable) : alookup [] v = none := rfl

def alookup_cons (p : Variable × Word) (a : Assign) (v : Variable) :
    alookup (p :: a) v = if p.1 = v then some p.2 else alookup a v := by
  by_cases h : p.1 = v <;> simp [alookup, List.find?_cons, h]

def dinsert_lookup_self (a : Assign) (v : Variable) (w : Word) :
    alookup (dinsert a v w) v = some w := by
  induction a with
  | nil => simp [dinsert, alookup, List.find?]
  | cons p rest ih =>
      by_cases h : p.1 = v
      · simp [dinsert, h, alookup_cons]
      · simpa [dinsert, h, alookup_cons, h] using ih

def dinsert_lookup_ne (a : Assign) (v u : Variable) (w : Word) (huv : u ≠ v) :
    alookup (dinsert a v w) u = alookup a u := by
  have hvu : ¬ ((v : Variable) = u) := fun h => huv h.symm
  induction a with
  | nil => simp [dinsert, alookup_nil, alookup_cons, hvu]
  | cons p rest ih =>
      by_cases h : p.1 = v
      · have hpu : ¬ (p.1 = u) := by rw [h]; exact hvu
        simp [dinsert, h, alookup_cons, hvu, hpu]
      · by_cases h2 : p.1 = u
        · simp [dinsert, h, alookup_cons, h2, huv]
        · simpa [dinsert, h, alookup_cons, h2] using ih

def aHas_dinsert_self (a : Assign) (v : Variable) (w : Word) :
    aHas (dinsert a v w) v = true := by
  simp [aHas, dinsert_lookup_self]

def aHas_dinsert_mono (a : Assign) (v u : Variable) (w : Word) (h : aHas a u = true) :
    aHas (dinsert a v w) u = true := by
  by_cases huv : u = v
  · subst huv; exact aHas_dinsert_self ..
  · simpa [aHas, dinsert_lookup_ne a v u w huv] using h

/-- Inserting an unassigned puzzle slot strictly decreases the number of
unassigned slots. -/
def count_dinsert_lt (cw : Crossword) (a : Assign) (v : Variable) (w : Word)
    (hv : v ∈ cw.vars) (hun : aHas a v = false) :
    count cw (dinsert a v w) < count cw a := by
  unfold count
  have hsub : (cw.vars.filter (fun u => !(aHas (dinsert a v w) u))).Sublist
      (cw.vars.filter (fun u => !(aHas a u))) := by
    apply List.monotone_filter_right
    intro u hu
    simp only [Bool.not_eq_true'] at hu ⊢
    by_cases h : aHas a u = true
    · exact absurd (aHas_dinsert_mono a v u w h) (by simp [hu])
    · simpa using h
  have hle := hsub.length_le
  rcases Nat.lt_or_ge (cw.vars.filter (fun u => !(aHas (dinsert a v w) u))).length
      (cw.vars.filter (fun u => !(aHas a u))).length with hlt | hge
  · exact hlt
  · exfalso
    have heq := hsub.eq_of_length (Nat.le_antisymm hle hge)
    have hvmem : v ∈ cw.vars.filter (fun u => !(aHas a u)) := by
      simp [List.mem_filter, hv, hun]
    rw [← heq] at hvmem
    have := (List.mem_filter.mp hvmem).2
    simp [aHas_dinsert_self] at this

/-- Expression `any(D[j] == xval[i] for D in self.domains[y])`: whether some word in
`y`'s domain supports `w` at the overlap offsets `(i, j)`.  (The source
compares characters of strings whose lengths match the slots after node
consistency; an out-of-range position, which would raise `IndexError`, is
read as a default character.) -/
def supported (doms : Domains) (y : Variable) (i j : Nat) (w : Word) : Bool :=
  (domOf doms y).any (fun d => decide (d.getD j ' ' = w.getD i ' '))

/-- Method `revise(x, y)`: remove from `domains[x]` every word with no supporting
word in `domains[y]` at the overlap offsets; no-op when `x` and `y` do not
cross.  Returns the updated Domain Store and whether a revision was made. -/
def revise (cw : Crossword) (doms : Domains) (x y : Variable) : Domains × Bool :=
  match overlapLookup cw x y with
  | none => (doms, false)
  | some (i, j) =>
      let keep := (domOf doms x).filter (supported doms y i j)
      if keep.length < (domOf doms x).length then (updD doms x keep, true) else (doms, false)

def revise_none (cw : Crossword) (doms : Domains) (x y : Variable)
    (hov : overlapLookup cw x y = none) : revise cw doms x y = (doms, false) := by
  simp [revise, hov]

def revise_some_lt (cw : Crossword) (doms : Domains) (x y : Variable) (i j : Nat)
    (hov : overlapLookup cw x y = some (i, j))
    (hlt : ((domOf doms x).filter (supported doms y i j)).length < (domOf doms x).length) :
    revise cw doms x y = (updD doms x ((domOf doms x).filter (supported doms y i j)), true) := by
  simp [revise, hov, hlt]

def revise_some_ge (cw : Crossword) (doms : Domains) (x y : Variable) (i j : Nat)
    (hov : overlapLookup cw x y = some (i, j))
    (hge : ¬ ((domOf doms x).filter (supported doms y i j)).length < (domOf doms x).length) :
    revise cw doms x y = (doms, false) := by
  simp [revise, hov, hge]

/-- Case analysis on a call of `revise`. -/
def revise_cases (cw : Crossword) (doms : Domains) (x y : Variable) :
    (revise cw doms x y = (doms, false) ∧
      ((revise cw doms x y).1 = doms ∧ (revise cw doms x y).2 = false)) ∨
    ∃ i j, overlapLookup cw x y = some (i, j) ∧
      ((domOf doms x).filter (supported doms y i j)).length < (domOf doms x).length ∧
      revise cw doms x y = (updD doms x ((domOf doms x).filter (supported doms y i j)), true) := by
  cases hov : overlapLookup cw x y with
  | none =>
      left
      have := revise_none cw doms x y hov
      exact ⟨this, by rw [this], by rw [this]⟩
  | some ij =>
      obtain ⟨i, j⟩ := ij
      by_cases hlt : ((domOf doms x).filter (supported doms y i j)).length < (domOf doms x).length
      · right
        refine ⟨i, j, ?_, hlt, revise_some_lt cw doms x y i j hov hlt⟩
        rfl

      · left
        have := revise_some_ge cw doms x y i j hov hlt
        exact ⟨this, by rw [this], by rw [this]⟩

/-- Total number of candidate words in the Domain Store (termination
measure for AC-3: every revision strictly shrinks it). -/
def totalSize (doms : Domains) : Nat :=
  (doms.map (fun p => p.2.length)).sum

def totalSize_updD (doms : Domains) (x : Variable) (ws : List Word)
    (h : (doms.find? (fun p => decide (p.1 = x))).isSome) :
    totalSize (updD doms x ws) + (domOf doms x).length = totalSize doms + ws.length := by
  induction doms with
  | nil => simp [List.find?] at h
  | cons p rest ih =>
      by_cases hpx : p.1 = x
      · simp [updD, hpx, totalSize, domOf, List.find?_cons]
        omega
      · have h' : (rest.find? (fun p => decide (p.1 = x))).isSome := by
          rw [List.find?_cons] at h
          simpa [hpx] using h
        have := ih h'
        simp [updD, hpx, totalSize, domOf, List.find?_cons] at *
        omega

def domOf_ne_nil_isSome (doms : Domains) (x : Variable) (h : domOf doms x ≠ []) :
    (doms.find? (fun p => decide (p.1 = x))).isSome := by
  unfold domOf at h
  cases hf : doms.find? (fun p => decide (p.1 = x)) with
  | none => rw [hf] at h; simp at h
  | some p => simp

def revise_shrink (cw : Crossword) (doms : Domains) (x y : Variable)
    (h : (revise cw doms x y).2 = true) :
    totalSize (revise cw doms x y).1 < totalSize doms := by
  rcases revise_cases cw doms x y with ⟨_, _, hfl⟩ | ⟨i, j, hov, hlt, heq⟩
  · rw [hfl] at h; cases h
  · rw [heq]
    dsimp only
    have hne : domOf doms x ≠ [] := by
      intro hnil
      rw [hnil] at hlt
      simp at hlt
    have := totalSize_updD doms x ((domOf doms x).filter (supported doms y i j))
      (domOf_ne_nil_isSome doms x hne)
    omega

/-- The arcs `ac3` re-enqueues after `revise(x, y)` reports a revision:
`for var in neighbors(x): if var != y: queue(x, var)` — note these are the
arcs `(x, var)` leading *out of* the revised variable `x`. -/
def enqueueArcs (cw : Crossword) (x y : Variable) : List (Variable × Variable) :=
  ((neighbors cw x).filter (fun z => decide (z ≠ y))).map (fun z => (x, z))

/-- The AC-3 worklist loop of `ac3`: pop the front arc (FIFO), revise, fail
on an emptied domain, re-enqueue `(x, var)` for the other neighbors of `x`
after a revision.  Returns the Domain Store as left by the run together
with the return value of `ac3` (`False` means a domain emptied). -/
def ac3Loop (cw : Crossword) : Domains → List (Variable × Variable) → Domains × Bool
  | doms, [] => (doms, true)
  | doms, (x, y) :: rest =>
      let rd := revise cw doms x y
      if h : rd.2 = true then
        if (domOf rd.1 x).isEmpty then (rd.1, false)
        else ac3Loop cw rd.1 (rest ++ enqueueArcs cw x y)
      else ac3Loop cw doms rest
termination_by doms arcs => (totalSize doms, arcs.length)
decreasing_by
  · exact Prod.Lex.left _ _ (revise_shrink cw doms x y h)
  · exact Prod.Lex.right _ (Nat.lt_succ_self _)

/-- Method `ac3(arcs)`: seed the worklist with the supplied arcs, or with every
directed arc of the overlap map when `arcs` is `None`. -/
def ac3 (cw : Crossword) (doms : Domains) (arcs : Option (List (Variable × Variable))) :
    Domains × Bool :=
  match arcs with
  | none => ac3Loop cw doms (initArcs cw)
  | some l => ac3Loop cw doms l

def exceptOk_bind {α β : Type} (a : α) (f : α → Except String β) :
    (Except.ok a >>= f) = f a := rfl

def exceptErr_bind {α β : Type} (e : String) (f : α → Except String β) :
    ((Except.error e : Except String α) >>= f) = Except.error e := rfl

/-- The filtered Domain Store left by the first (and only legitimate) run of
`enforce_node_consistency`. -/
def nodeConsistentDomains (cw : Crossword) : Domains :=
  cw.vars.map (fun v => (v, cw.words.filter (fun w => decide (v.length = w.length))))

/-- Method `assignment_complete(assignment)`: every puzzle slot has an entry
(the source returns `False` at the first missing slot). -/
def assignment_complete (cw : Crossword) (a : Assign) : Bool :=
  cw.vars.all (fun v => aHas a v)

/-- Indexing `word[i]`: Python string indexing, raising `IndexError` out of range. -/
def strIdx (w : Word) (i : Nat) : Except String Char :=
  match w[i]? with
  | some c => .ok c
  | none => .error "IndexError"

/-- The duplicate-word check of `consistent` for one assigned slot `key`
holding `var`: `assignment[key] == assignment[chk]` for some key `chk ≠ key`. -/
def dupWord (a : Assign) (key : Variable) (var : Word) : Bool :=
  a.any (fun q => decide (q.1 ≠ key) && decide (alookup a q.1 = some var))

/-- The neighbor loop of `consistent` for one assigned slot `key` holding
`var`: skip unassigned neighbors, unpack the overlap offsets (`i, j =
overlaps[key, nbr]` raises `TypeError` when the entry is `None` — dead code,
since `neighbors` only lists slots whose overlap entry exists), and compare
the crossing characters. -/
def consistentNbrs (cw : Crossword) (a : Assign) (key : Variable) (var : Word) :
    List Variable → Except String Bool
  | [] => .ok true
  | nbr :: rest =>
      match alookup a nbr with
      | none => consistentNbrs cw a key var rest
      | some wn =>
          match overlapLookup cw key nbr with
          | none => .error "TypeError"
          | some (i, j) => do
              let c1 ← strIdx var i
              let c2 ← strIdx wn j
              if c1 = c2 then consistentNbrs cw a key var rest else .ok false

/-- The outer loop of `consistent`, over the assignment's entries in
insertion order: length check, duplicate-word check, then the neighbor
crossing checks; `False` on the first violation. -/
def consistentLoop (cw : Crossword) (a : Assign) :
    List (Variable × Word) → Except String Bool
  | [] => .ok true
  | (key, var) :: rest =>
      if key.length ≠ var.length then .ok false
      else if dupWord a key var then .ok false
      else do
        let ok ← consistentNbrs cw a key var (neighbors cw key)
        if ok then consistentLoop cw a rest else .ok false

/-- Method `consistent(assignment)`: words fit their slots, no word reused, all
crossing characters agree — checked only over the assignment's own entries,
never consulting the Domain Store. -/
def consistent (cw : Crossword) (a : Assign) : Except String Bool :=
  consistentLoop cw a a

/-- The LCV score `temp_dic[val]` of `order_domain_values`: for each
neighbor of `var` not in the assignment, the number of its candidates whose
overlap character disagrees with `val`'s.  (Characters are compared on
words whose lengths match the slots after node consistency; an
out-of-range position, which would raise `IndexError`, reads a default
character.  The `None`-unpack branch is dead code as in `consistentNbrs`.) -/
def lcvScore (cw : Crossword) (doms : Domains) (a : Assign) (var : Variable)
    (val : Word) : Nat :=
  ((neighbors cw var).filter (fun nbr => !(aHas a nbr))).foldl
    (fun acc nbr =>
      match overlapLookup cw var nbr with
      | none => acc
      | some (i, j) =>
          acc + ((domOf doms nbr).filter
            (fun nv => decide (val.getD i ' ' ≠ nv.getD j ' '))).length) 0

/-- The comparison `sorted(temp_dic.items(), key=lambda item: item[1])`
sorts by: score ascending. -/
def lcvLe (p q : Word × Nat) : Prop := p.2 ≤ q.2

instance : DecidableRel lcvLe := fun p q => Nat.decLe p.2 q.2

instance : IsTotal (Word × Nat) lcvLe := ⟨fun p q => Nat.le_total p.2 q.2⟩

instance : IsTrans (Word × Nat) lcvLe := ⟨fun a b c => Nat.le_trans⟩

/-- Method `order_domain_values(var, assignment)`: a singleton domain is returned
at once; otherwise the candidates are scored and sorted ascending by score.
`temp_dic` is a Python dict keyed by the (duplicate-free) domain's words in
iteration order, so its `items()` are the (word, score) pairs in domain
order; Python's `sorted` is stable, as is `List.insertionSort` with a total
preorder. -/
def order_domain_values (cw : Crossword) (doms : Domains) (var : Variable) (a : Assign) :
    List Word :=
  if (domOf doms var).length = 1 then domOf doms var
  else
    (((domOf doms var).map (fun val => (val, lcvScore cw doms a var val))).insertionSort
      lcvLe).map (·.1)

/-- One entry of `var_list` in `select_unassigned_variable`:
`[var, len(domains[var]), 1/len(neighbors(var))]` — building it raises
`ZeroDivisionError` when the slot has no neighbors.  The float `1/deg` is
modelled as the exact rational: for the degrees a puzzle can produce the
two orders agree. -/
def selEntry (cw : Crossword) (doms : Domains) (v : Variable) :
    Except String (Variable × Nat × ℚ) :=
  if (neighbors cw v).length = 0 then .error "ZeroDivisionError"
  else .ok (v, (domOf doms v).length, (1 : ℚ) / ((neighbors cw v).length : ℚ))

/-- The comparison `var_list.sort(key=itemgetter(1, 2))`: domain size
ascending, then `1/degree` ascending (so degree descending). -/
def selLe (p q : Variable × Nat × ℚ) : Prop :=
  p.2.1 < q.2.1 ∨ (p.2.1 = q.2.1 ∧ p.2.2 ≤ q.2.2)

instance : DecidableRel selLe := fun p q => by unfold selLe; infer_instance

instance : IsTotal (Variable × Nat × ℚ) selLe := by
  constructor
  intro p q
  rcases Nat.lt_trichotomy p.2.1 q.2.1 with h | h | h
  · exact Or.inl (Or.inl h)
  · rcases le_total p.2.2 q.2.2 with h2 | h2
    · exact Or.inl (Or.inr ⟨h, h2⟩)
    · exact Or.inr (Or.inr ⟨h.symm, h2⟩)
  · exact Or.inr (Or.inl h)

instance : IsTrans (Variable × Nat × ℚ) selLe := by
  constructor
  rintro a b c (hab | ⟨hab, hab2⟩) (hbc | ⟨hbc, hbc2⟩)
  · exact Or.inl (Nat.lt_trans hab hbc)
  · exact Or.inl (hbc ▸ hab)
  · exact Or.inl (hab ▸ hbc)
  · exact Or.inr ⟨hab.trans hbc, hab2.trans hbc2⟩

/-- Method `select_unassigned_variable(assignment)`: build
`[var, len(domain), 1/degree]` for every unassigned slot (raising
`ZeroDivisionError` on an isolated slot), return the single entry when
there is exactly one, else sort by (domain size, 1/degree) and return the
first (`var_list[0]` raises `IndexError` when no slot is unassigned). -/
def select_unassigned_variable (cw : Crossword) (doms : Domains) (a : Assign) :
    Except String Variable :=
  match (cw.vars.filter (fun v => !(aHas a v))).mapM (selEntry cw doms) with
  | .error e => .error e
  | .ok var_list =>
      match var_list with
      | [e] => .ok e.1
      | l =>
          match l.insertionSort selLe with
          | e :: _ => .ok e.1
          | [] => .error "IndexError"

def mapM_ok_mem {α β : Type} (f : α → Except String β) :
    ∀ (l : List α) (out : List β), l.mapM f = .ok out →
      ∀ e ∈ out, ∃ x ∈ l, f x = .ok e := by
  intro l
  induction l with
  | nil =>
      intro out h e he
      rw [List.mapM_nil] at h
      cases h
      cases he
  | cons x xs ih =>
      intro out h e he
      rw [List.mapM_cons] at h
      cases hfx : f x with
      | error err =>
          rw [hfx, exceptErr_bind] at h
          cases h
      | ok b =>
          rw [hfx, exceptOk_bind] at h
          cases hrest : xs.mapM f with
          | error err =>
              rw [hrest, exceptErr_bind] at h
              cases h
          | ok out' =>
              rw [hrest, exceptOk_bind] at h
              have : b :: out' = out := by
                cases h
                rfl
              subst this
              rcases List.mem_cons.mp he with he1 | he2
              · exact ⟨x, List.mem_cons_self x xs, he1 ▸ hfx⟩
              · rcases ih out' hrest e he2 with ⟨u, hu, hfu⟩
                exact ⟨u, List.mem_cons_of_mem x hu, hfu⟩

def selEntry_ok_fst (cw : Crossword) (doms : Domains) (v : Variable)
    (e : Variable × Nat × ℚ) (h : selEntry cw doms v = .ok e) : e.1 = v := by
  unfold selEntry at h
  by_cases hdeg : (neighbors cw v).length = 0
  · rw [if_pos hdeg] at h; cases h
  · rw [if_neg hdeg] at h
    cases h
    rfl

/-- Whatever `select_unassigned_variable` returns comes from the list of
unassigned entries. -/
def select_ok_entry (cw : Crossword) (doms : Domains) (a : Assign) (var : Variable)
    (h : select_unassigned_variable cw doms a = .ok var) :
    ∃ v ∈ cw.vars.filter (fun v => !(aHas a v)), v = var := by
  unfold select_unassigned_variable at h
  cases hmap : (cw.vars.filter (fun v => !(aHas a v))).mapM (selEntry cw doms) with
  | error e => rw [hmap] at h; cases h
  | ok out =>
      rw [hmap] at h
      have h' : (match out with
          | [e] => (Except.ok e.1 : Except String Variable)
          | l =>
              match l.insertionSort selLe with
              | e :: _ => .ok e.1
              | [] => .error "IndexError") = .ok var := h
      have find_of_mem : ∀ e (hmem : e ∈ out) (hvar : var = e.1),
          ∃ v ∈ cw.vars.filter (fun v => !(aHas a v)), v = var := by
        intro e hmem hvar
        rcases mapM_ok_mem _ _ _ hmap e hmem with ⟨v, hv, hfv⟩
        exact ⟨v, hv, by rw [hvar, selEntry_ok_fst cw doms v e hfv]⟩
      match out, h' with
      | [e], h' =>
          have h2 : (Except.ok e.1 : Except String Variable) = .ok var := h'
          injection h2 with h3
          exact find_of_mem e (List.mem_cons_self e []) h3.symm
      | [], h' =>
          have h2 : (Except.error "IndexError" : Except String Variable) = .ok var := h'
          cases h2
      | e1 :: e2 :: rest, h' =>
          have h'' : (match (e1 :: e2 :: rest).insertionSort selLe with
              | e :: _ => (Except.ok e.1 : Except String Variable)
              | [] => .error "IndexError") = .ok var := h'
          cases hs : (e1 :: e2 :: rest).insertionSort selLe with
          | nil =>
              have := List.perm_insertionSort selLe (e1 :: e2 :: rest)
              rw [hs] at this
              cases this.symm.eq_nil
          | cons e0 t0 =>
              rw [hs] at h''
              have h2 : (Except.ok e0.1 : Except String Variable) = .ok var := h''
              injection h2 with h3
              have he0 : e0 ∈ e1 :: e2 :: rest := by
                have := List.perm_insertionSort selLe (e1 :: e2 :: rest)
                rw [hs] at this
                exact this.mem_iff.mp (List.mem_cons_self e0 t0)
              exact find_of_mem e0 he0 h3.symm

def select_ok_mem (cw : Crossword) (doms : Domains) (a : Assign) (var : Variable)
    (h : select_unassigned_variable cw doms a = .ok var) :
    var ∈ cw.vars ∧ aHas a var = false := by
  rcases select_ok_entry cw doms a var h with ⟨v, hv, hvv⟩
  rw [List.mem_filter] at hv
  subst hvv
  exact ⟨hv.1, by simpa using hv.2⟩

def count_lt_of_select (cw : Crossword) (doms : Domains) (a : Assign) (var : Variable)
    (h : select_unassigned_variable cw doms a = .ok var) :
    ∀ val, count cw (dinsert a var val) < count cw a := by
  intro val
  rcases select_ok_mem cw doms a var h with ⟨h1, h2⟩
  exact count_dinsert_lt cw a var val h1 h2

/-- Python truthiness of a backtracking result as tested by `if result:` —
`None` and the empty dict are falsy. -/
def truthy : Option Assign → Bool
  | none => false
  | some a => !a.isEmpty

mutual

/-- Method `backtrack(assignment)`: return the assignment once complete; otherwise
select an unassigned slot and try its candidate values in LCV order.
Exceptions raised below (e.g. `ZeroDivisionError` in the selection) 
propagate out.  The recursion terminates because every recursive call
assigns one more slot; `tryValues` carries that fact as `hlt`. -/
def backtrack (cw : Crossword) (doms : Domains) (a : Assign) :
    Except String (Option Assign) :=
  if assignment_complete cw a then .ok (some a)
  else
    match hsel : select_unassigned_variable cw doms a with
    | .error e => .error e
    | .ok var =>
        tryValues cw doms a var (count_lt_of_select cw doms a var hsel)
          (order_domain_values cw doms var a)
termination_by (count cw a, 1, 0)
decreasing_by
  · exact Prod.Lex.right _ (Prod.Lex.left _ _ Nat.zero_lt_one)

/-- The `for value in self.order_domain_values(var, assignment)` loop of
`backtrack`: set `assignment[var] = value`; if the extended assignment is
consistent, recurse and propagate a truthy result at once; otherwise
(or on a falsy result) `assignment.pop(var)` and continue with the next
candidate; return `None` when the candidates are exhausted. -/
def tryValues (cw : Crossword) (doms : Domains) (a : Assign) (var : Variable)
    (hlt : ∀ val, count cw (dinsert a var val) < count cw a) :
    List Word → Except String (Option Assign)
  | [] => .ok none
  | val :: rest => do
      let c ← consistent cw (dinsert a var val)
      if c then do
        let result ← backtrack cw doms (dinsert a var val)
        if truthy result then .ok result
        else tryValues cw doms a var hlt rest
      else tryValues cw doms a var hlt rest
termination_by l => (count cw a, 0, l.length)
decreasing_by
  · simp_wf
    exact Prod.Lex.left _ _ (hlt val)
  · simp_wf
    exact Prod.Lex.right _ (Prod.Lex.right _ (Nat.lt_succ_self _))

end

/-- Method `solve()`: enforce node consistency, run AC-3 — whose Boolean result is
discarded, exactly as in the source (`self.ac3()` on its own line) — and
backtrack from the empty assignment. -/
def solve (cw : Crossword) : Except String (Option Assign) :=
  match enforce_node_consistency cw (initDomains cw) with
  | .error e => .error e
  | .ok d1 => backtrack cw (ac3 cw d1 none).1 []

/-- Invariant (a) of spec section 3: every assigned word's length equals
its slot's length. -/
def LengthsOK (a : Assign) : Prop := ∀ p ∈ a, p.1.length = p.2.length

/-- Invariant (b): no two distinct assigned slots hold the same word. -/
def DistinctWords (a : Assign) : Prop :=
  ∀ p ∈ a, ∀ q ∈ a, p.1 ≠ q.1 → p.2 ≠ q.2

/-- One crossing constraint between two assigned entries: if the pair has an
overlap entry `(i, j)`, character `i` of the first word equals character
`j` of the second. -/
def crossPairOK (cw : Crossword) (p q : Variable × Word) : Bool :=
  match overlapLookup cw p.1 q.1 with
  | some (i, j) => decide (p.2.getD i ' ' = q.2.getD j ' ')
  | none => true

/-- Invariant (c): every pair of assigned slots with an overlap entry agrees
at the designated character offsets. -/
def CrossOK (cw : Crossword) (a : Assign) : Prop :=
  ∀ p ∈ a, ∀ q ∈ a, crossPairOK cw p q = true

/-- The section 3 invariants of a (possibly partial) assignment. -/
def SpecConsistent (cw : Crossword) (a : Assign) : Prop :=
  LengthsOK a ∧ DistinctWords a ∧ CrossOK cw a

/-- The assignment maps each slot at most once (automatic for a Python dict). -/
def keysNodup (a : Assign) : Prop := (a.map (·.1)).Nodup

/-- Every slot of the puzzle is assigned. -/
def CompleteA (cw : Crossword) (a : Assign) : Prop := ∀ v ∈ cw.vars, aHas a v = true

/-- A complete assignment over the puzzle's slots, drawing its words from
the vocabulary and satisfying the section 3 invariants. -/
def VocabSolution (cw : Crossword) (a : Assign) : Prop :=
  CompleteA cw a ∧ SpecConsistent cw a ∧
    (∀ p ∈ a, p.1 ∈ cw.vars ∧ p.2 ∈ cw.words) ∧ keysNodup a

instance (a : Assign) : Decidable (LengthsOK a) := by unfold LengthsOK; infer_instance

instance (a : Assign) : Decidable (DistinctWords a) := by unfold DistinctWords; infer_instance

instance (cw : Crossword) (a : Assign) : Decidable (CrossOK cw a) := by
  unfold CrossOK; infer_instance

instance (cw : Crossword) (a : Assign) : Decidable (SpecConsistent cw a) := by
  unfold SpecConsistent; infer_instance

instance (a : Assign) : Decidable (keysNodup a) := by unfold keysNodup; infer_instance

instance (cw : Crossword) (a : Assign) : Decidable (CompleteA cw a) := by
  unfold CompleteA; infer_instance

instance (cw : Crossword) (a : Assign) : Decidable (VocabSolution cw a) := by
  unfold VocabSolution; infer_instance

/-- The single isolated slot of length 4 from spec section 8, scenario 3. -/
def isoVar : Variable := ⟨Direction.down, 0, 0, 4⟩

/-- Scenario 3 puzzle: one isolated slot, vocabulary `{WORD, TREE, CODE}`. -/
def cwIso : Crossword := {
  vars := [isoVar],
  words := [['W','O','R','D'], ['T','R','E','E'], ['C','O','D','E']],
  overlaps := [] }

def zVar : Variable := ⟨Direction.across, 0, 0, 2⟩

def xVar : Variable := ⟨Direction.down, 1, 0, 2⟩

def yVar : Variable := ⟨Direction.across, 2, 0, 2⟩

/-- Three length-2 slots: Z crosses X (last characters), X crosses Y
(X's last = Y's first); vocabulary `{AA, AB}`. -/
def cwC4 : Crossword := {
  vars := [zVar, xVar, yVar],
  words := [['A','A'], ['A','B']],
  overlaps := [((zVar, xVar), (1, 1)), ((xVar, zVar), (1, 1)),
               ((xVar, yVar), (1, 0)), ((yVar, xVar), (0, 1))] }

/-- The Domain Store after AC-3 has pruned `AB` from X's domain in `cwC4`. -/
def d1C4 : Domains :=
  [(zVar, [['A','A'], ['A','B']]), (xVar, [['A','A']]), (yVar, [['A','A'], ['A','B']])]

def aVar : Variable := ⟨Direction.across, 0, 0, 3⟩

def bVar : Variable := ⟨Direction.down, 0, 0, 3⟩

def cVar : Variable := ⟨Direction.down, 5, 5, 3⟩

/-- Slots A and B of length 3, crossing so that A's first character must
equal B's third; vocabulary `{CAT, DOG}`: AC-3 empties A's domain. -/
def cwAB : Crossword := {
  vars := [aVar, bVar],
  words := [['C','A','T'], ['D','O','G']],
  overlaps := [((aVar, bVar), (0, 2)), ((bVar, aVar), (2, 0))] }

/-- Puzzle `cwAB` plus an isolated slot C of length 3. -/
def cwABC : Crossword := {
  vars := [aVar, bVar, cVar],
  words := [['C','A','T'], ['D','O','G']],
  overlaps := [((aVar, bVar), (0, 2)), ((bVar, aVar), (2, 0))] }

def dABempty : Domains :=
  [(aVar, []), (bVar, [['C','A','T'], ['D','O','G']])]

def dABCempty : Domains :=
  [(aVar, []), (bVar, [['C','A','T'], ['D','O','G']]),
   (cVar, [['C','A','T'], ['D','O','G']])]

/-- A complete assignment that draws every value from the (pruned) Domain
Store and satisfies the section 3 invariants. -/
def SolutionW (cw : Crossword) (doms : Domains) (s : Assign) : Prop :=
  CompleteA cw s ∧ SpecConsistent cw s ∧
    (∀ p ∈ s, p.1 ∈ cw.vars ∧ p.2 ∈ domOf doms p.1) ∧ keysNodup s

/-- Predicate: `s` agrees with every entry of `a` (the recursion only ever adds
entries, so results extend the assignment they started from). -/
def ExtendsA (s a : Assign) : Prop := ∀ v w, alookup a v = some w → alookup s v = some w

/-- Invariant carried through the backtracking recursion. -/
def InvA (cw : Crossword) (doms : Domains) (a : Assign) : Prop :=
  keysNodup a ∧ (∀ p ∈ a, p.1 ∈ cw.vars ∧ p.2 ∈ domOf doms p.1) ∧ SpecConsistent cw a

/-- The spec's scenario 1 puzzle: A and B crossing at their first
characters, vocabulary `{CAT, COW}`. -/
def cwCATCOW : Crossword := {
  vars := [aVar, bVar],
  words := [['C','A','T'], ['C','O','W']],
  overlaps := [((aVar, bVar), (0, 0)), ((bVar, aVar), (0, 0))] }

/-- Reading `domOf` after an in-place update of the same key. -/
theorem domOf_updD_self (doms : Domains) (x : Variable) (ws : List Word)
    (h : (doms.find? (fun p => decide (p.1 = x))).isSome) :
    domOf (updD doms x ws) x = ws := by
  induction doms with
  | nil => simp [List.find?] at h
  | cons p rest ih =>
      by_cases hpx : p.1 = x
      · simp [updD, hpx, domOf, List.find?]
      · have h' : (rest.find? (fun p => decide (p.1 = x))).isSome := by
          rw [List.find?_cons] at h
          simpa [hpx] using h
        simpa [updD, hpx, domOf, List.find?_cons, hpx] using ih h'

/-- Reading `domOf` of another key is unchanged by an in-place update. -/
theorem domOf_updD_ne (doms : Domains) (x y : Variable) (ws : List Word) (hxy : y ≠ x) :
    domOf (updD doms x ws) y = domOf doms y := by
  have hxy' : ¬ ((x : Variable) = y) := fun h => hxy h.symm
  induction doms with
  | nil => simp [updD]
  | cons p rest ih =>
      by_cases hpx : p.1 = x
      · have hpy : ¬ (p.1 = y) := by rw [hpx]; exact hxy'
        simp [updD, hpx, domOf, List.find?_cons, hxy', hpy]
      · by_cases hpy : p.1 = y
        · simp [updD, hpx, domOf, List.find?_cons, hpy, hxy]
        · simpa [updD, hpx, domOf, List.find?_cons, hpy] using ih

/-- Inserting a fresh key appends the new entry. -/
theorem dinsert_fresh (a : Assign) (v : Variable) (w : Word) (h : aHas a v = false) :
    dinsert a v w = a ++ [(v, w)] := by
  induction a with
  | nil => simp [dinsert]
  | cons p rest ih =>
      have hne : ¬ (p.1 = v) := by
        intro hc
        simp [aHas, alookup_cons, hc] at h
      have h' : aHas rest v = false := by
        simpa [aHas, alookup_cons, hne] using h
      simp [dinsert, hne, ih h']

theorem alookup_mem {a : Assign} {v : Variable} {w : Word} (h : alookup a v = some w) :
    (v, w) ∈ a := by
  unfold alookup at h
  cases hf : a.find? (fun p => decide (p.1 = v)) with
  | none => simp [hf] at h
  | some p =>
      simp [hf] at h
      have hp := List.find?_some hf
      have hmem := List.mem_of_find?_eq_some hf
      have h1 : p.1 = v := by simpa using hp
      have : p = (v, w) := by
        cases p; simp_all
      rwa [this] at hmem

theorem aHas_true_iff (a : Assign) (v : Variable) :
    aHas a v = true ↔ ∃ w, alookup a v = some w := by
  unfold aHas
  cases h : alookup a v <;> simp [h]

theorem ac3Loop_nil (cw : Crossword) (doms : Domains) :
    ac3Loop cw doms [] = (doms, true) := by
  rw [ac3Loop]

theorem ac3Loop_cons_noRevise (cw : Crossword) (doms : Domains) (x y : Variable)
    (rest : List (Variable × Variable)) (h : (revise cw doms x y).2 = false) :
    ac3Loop cw doms ((x, y) :: rest) = ac3Loop cw doms rest := by
  rw [ac3Loop]
  simp [h]

theorem ac3Loop_cons_empty (cw : Crossword) (doms : Domains) (x y : Variable)
    (rest : List (Variable × Variable)) (h : (revise cw doms x y).2 = true)
    (hemp : domOf (revise cw doms x y).1 x = []) :
    ac3Loop cw doms ((x, y) :: rest) = ((revise cw doms x y).1, false) := by
  rw [ac3Loop]
  simp [h, hemp]

theorem ac3Loop_cons_step (cw : Crossword) (doms : Domains) (x y : Variable)
    (rest : List (Variable × Variable)) (h : (revise cw doms x y).2 = true)
    (hne : domOf (revise cw doms x y).1 x ≠ []) :
    ac3Loop cw doms ((x, y) :: rest) =
      ac3Loop cw (revise cw doms x y).1 (rest ++ enqueueArcs cw x y) := by
  rw [ac3Loop]
  simp [h, hne]

theorem revise_true_dx_ne (cw : Crossword) (doms : Domains) (x y : Variable)
    (h : (revise cw doms x y).2 = true) : domOf doms x ≠ [] := by
  rcases revise_cases cw doms x y with ⟨_, _, hfl⟩ | ⟨i, j, hov, hlt, heq⟩
  · rw [hfl] at h; cases h
  · intro hnil
    rw [hnil] at hlt
    simp at hlt

theorem revise_domOf_ne (cw : Crossword) (doms : Domains) (x y v : Variable) (hvx : v ≠ x) :
    domOf (revise cw doms x y).1 v = domOf doms v := by
  rcases revise_cases cw doms x y with ⟨_, h1, _⟩ | ⟨i, j, hov, hlt, heq⟩
  · rw [h1]
  · rw [heq]
    exact domOf_updD_ne doms x v _ hvx

theorem revise_subset (cw : Crossword) (doms : Domains) (x y : Variable) :
    ∀ v w, w ∈ domOf (revise cw doms x y).1 v → w ∈ domOf doms v := by
  intro v w hw
  rcases revise_cases cw doms x y with ⟨_, h1, _⟩ | ⟨i, j, hov, hlt, heq⟩
  · rwa [h1] at hw
  · rw [heq] at hw
    by_cases hvx : v = x
    · subst hvx
      have hne : domOf doms v ≠ [] := by
        intro hnil; rw [hnil] at hlt; simp at hlt
      rw [domOf_updD_self doms v _ (domOf_ne_nil_isSome doms v hne)] at hw
      exact (List.mem_filter.mp hw).1
    · rwa [domOf_updD_ne doms x v _ hvx] at hw

theorem ac3Loop_subset (cw : Crossword) (doms : Domains) (arcs : List (Variable × Variable)) :
    ∀ v w, w ∈ domOf (ac3Loop cw doms arcs).1 v → w ∈ domOf doms v := by
  induction doms, arcs using ac3Loop.induct cw with
  | case1 doms =>
      intro v w hw
      rwa [ac3Loop_nil] at hw
  | case2 doms x y rest rd htrue hemp =>
      intro v w hw
      rw [ac3Loop_cons_empty cw doms x y rest htrue (List.isEmpty_iff.mp hemp)] at hw
      exact revise_subset cw doms x y v w hw
  | case3 doms x y rest rd htrue hne ih =>
      intro v w hw
      rw [ac3Loop_cons_step cw doms x y rest htrue
        (fun hc => hne (List.isEmpty_iff.mpr hc))] at hw
      exact revise_subset cw doms x y v w (ih v w hw)
  | case4 doms x y rest rd hfalse ih =>
      intro v w hw
      rw [ac3Loop_cons_noRevise cw doms x y rest (Bool.not_eq_true _ ▸ hfalse)] at hw
      exact ih v w hw

theorem ac3Loop_false_empty (cw : Crossword) (doms : Domains)
    (arcs : List (Variable × Variable)) (hfl : (ac3Loop cw doms arcs).2 = false) :
    ∃ v, domOf (ac3Loop cw doms arcs).1 v = [] ∧ domOf doms v ≠ [] := by
  induction doms, arcs using ac3Loop.induct cw with
  | case1 doms =>
      rw [ac3Loop_nil] at hfl
      cases hfl
  | case2 doms x y rest rd htrue hemp =>
      rw [ac3Loop_cons_empty cw doms x y rest htrue (List.isEmpty_iff.mp hemp)]
      exact ⟨x, List.isEmpty_iff.mp hemp, revise_true_dx_ne cw doms x y htrue⟩
  | case3 doms x y rest rd htrue hne ih =>
      rw [ac3Loop_cons_step cw doms x y rest htrue
        (fun hc => hne (List.isEmpty_iff.mpr hc))] at hfl ⊢
      obtain ⟨v, hv1, hv2⟩ := ih hfl
      refine ⟨v, hv1, ?_⟩
      intro hnil
      rcases List.exists_mem_of_ne_nil _ hv2 with ⟨w, hw⟩
      have := revise_subset cw doms x y v w hw
      rw [hnil] at this
      cases this
  | case4 doms x y rest rd hfalse ih =>
      rw [ac3Loop_cons_noRevise cw doms x y rest (Bool.not_eq_true _ ▸ hfalse)] at hfl ⊢
      exact ih hfl

theorem ac3Loop_true_nonempty (cw : Crossword) (doms : Domains)
    (arcs : List (Variable × Variable)) (hfl : (ac3Loop cw doms arcs).2 = true) :
    ∀ v, domOf doms v ≠ [] → domOf (ac3Loop cw doms arcs).1 v ≠ [] := by
  induction doms, arcs using ac3Loop.induct cw with
  | case1 doms =>
      intro v hv
      rwa [ac3Loop_nil]
  | case2 doms x y rest rd htrue hemp =>
      rw [ac3Loop_cons_empty cw doms x y rest htrue (List.isEmpty_iff.mp hemp)] at hfl
      cases hfl
  | case3 doms x y rest rd htrue hne ih =>
      rw [ac3Loop_cons_step cw doms x y rest htrue
        (fun hc => hne (List.isEmpty_iff.mpr hc))] at hfl ⊢
      intro v hv
      apply ih hfl
      by_cases hvx : v = x
      · subst hvx
        exact fun hc => hne (List.isEmpty_iff.mpr hc)
      · rwa [revise_domOf_ne cw doms x y v hvx]
  | case4 doms x y rest rd hfalse ih =>
      rw [ac3Loop_cons_noRevise cw doms x y rest (Bool.not_eq_true _ ▸ hfalse)] at hfl ⊢
      exact ih hfl

/-- Claim C5:  For every initial worklist — an explicitly supplied arc list or
the default seeding from the overlap map — `ac3` terminates (it is defined
here by well-founded recursion on (total domain size, worklist length), the
spec's own termination argument), and it returns `False` if and only if
some slot's domain becomes empty during the propagation run (the slot's
domain is empty in the store left by the run but was non-empty when the run
started — domains only shrink); otherwise it returns `True`. -/
theorem ac3_false_iff_domain_emptied (cw : Crossword) (doms : Domains)
    (arcs : Option (List (Variable × Variable))) :
    (ac3 cw doms arcs).2 = false ↔
      ∃ v, domOf (ac3 cw doms arcs).1 v = [] ∧ domOf doms v ≠ [] := by
  have key : ∀ l, (ac3Loop cw doms l).2 = false ↔
      ∃ v, domOf (ac3Loop cw doms l).1 v = [] ∧ domOf doms v ≠ [] := by
    intro l
    constructor
    · exact ac3Loop_false_empty cw doms l
    · rintro ⟨v, hv1, hv2⟩
      cases hfl : (ac3Loop cw doms l).2 with
      | false => rfl
      | true => exact absurd hv1 (ac3Loop_true_nonempty cw doms l hfl v hv2)
  cases arcs with
  | none => exact key (initArcs cw)
  | some l => exact key l

theorem encVar_no_mismatch (key : Variable) (ws : List Word) (d : List Word)
    (h : ∀ w ∈ ws, key.length = w.length) : encVar ws key d = .ok d := by
  induction ws generalizing d with
  | nil => rfl
  | cons w ws ih =>
      unfold encVar at *
      rw [List.foldlM_cons, if_pos (h w (List.mem_cons_self w ws)), exceptOk_bind]
      exact ih d (fun u hu => h u (List.mem_cons_of_mem w hu))

theorem encVar_ok (key : Variable) (ws : List Word) (d : List Word)
    (hnd : ws.Nodup) (hdn : d.Nodup)
    (hmem : ∀ w ∈ ws, key.length ≠ w.length → w ∈ d) :
    encVar ws key d =
      .ok (d.filter (fun x => decide (key.length = x.length) || decide (x ∉ ws))) := by
  induction ws generalizing d with
  | nil =>
      unfold encVar
      rw [List.foldlM_nil]
      congr 1
      have hp : (fun x : Word => decide (key.length = x.length) || decide (x ∉ ([] : List Word)))
          = fun _ => true := by
        funext x; simp
      rw [hp]
      simp
  | cons w ws ih =>
      unfold encVar at *
      rw [List.foldlM_cons]
      by_cases hmis : key.length = w.length
      · rw [if_pos hmis, exceptOk_bind]
        rw [ih d hnd.of_cons hdn
          (fun u hu hne => hmem u (List.mem_cons_of_mem w hu) hne)]
        congr 1
        apply List.filter_congr
        intro x hx
        by_cases hxlen : key.length = x.length
        · simp [hxlen]
        · have hxw : ¬ (x = w) := by
            intro he; rw [he] at hxlen; exact hxlen hmis
          simp [hxlen, hxw]
      · rw [if_neg hmis]
        have hwd : w ∈ d := hmem w (List.mem_cons_self w ws) hmis
        have hsr : sremove d w = .ok (d.erase w) := by
          unfold sremove; rw [if_pos hwd]
        rw [hsr, exceptOk_bind]
        have herase : d.erase w = d.filter (fun x => decide (¬ (x = w))) := by
          rw [List.Nodup.erase_eq_filter hdn w]
          apply List.filter_congr
          intro x hx
          by_cases hxw : x = w <;> simp [hxw]
        rw [herase]
        rw [ih (d.filter (fun x => decide (¬ (x = w)))) hnd.of_cons (hdn.filter _) ?side]
        case side =>
          intro u hu hne
          rw [List.mem_filter]
          refine ⟨hmem u (List.mem_cons_of_mem w hu) hne, ?_⟩
          have : ¬ (u = w) := by
            intro he
            subst he
            exact (List.nodup_cons.mp hnd).1 hu
          simp [this]
        congr 1
        rw [List.filter_filter]
        apply List.filter_congr
        intro x hx
        by_cases hxw : x = w
        · subst hxw
          simp [hmis]
        · by_cases hxlen : key.length = x.length
          · simp [hxlen, hxw]
          · by_cases hxmem : x ∈ ws
            · simp [hxlen, hxw, hxmem]
            · simp [hxlen, hxw, hxmem]

/-- After the first pass on a full-vocabulary domain, the domain is exactly
the words of the slot's length. -/
theorem encVar_full (key : Variable) (ws : List Word) (hnd : ws.Nodup) :
    encVar ws key ws = .ok (ws.filter (fun w => decide (key.length = w.length))) := by
  rw [encVar_ok key ws ws hnd hnd (fun w hw _ => hw)]
  congr 1
  apply List.filter_congr
  intro x hx
  simp [hx]

theorem encVar_err (key : Variable) (ws : List Word) (d : List Word)
    (hex : ∃ w ∈ ws, key.length ≠ w.length)
    (habs : ∀ w ∈ ws, key.length ≠ w.length → w ∉ d) :
    encVar ws key d = .error "KeyError" := by
  induction ws generalizing d with
  | nil => simp at hex
  | cons w ws ih =>
      unfold encVar at *
      rw [List.foldlM_cons]
      by_cases hmis : key.length = w.length
      · rw [if_pos hmis, exceptOk_bind]
        have hex' : ∃ u ∈ ws, key.length ≠ u.length := by
          rcases hex with ⟨u, hu, hne⟩
          rcases List.mem_cons.mp hu with he | hu'
          · rw [he] at hne; exact absurd hmis hne
          · exact ⟨u, hu', hne⟩
        exact ih d hex' (fun u hu hne => habs u (List.mem_cons_of_mem w hu) hne)
      · rw [if_neg hmis]
        have hsr : sremove d w = .error "KeyError" := by
          unfold sremove; rw [if_neg (habs w (List.mem_cons_self w ws) hmis)]
        rw [hsr, exceptErr_bind]

theorem enforce_map_ok (cw : Crossword) (vs : List Variable) (f g : Variable → List Word)
    (h : ∀ v ∈ vs, encVar cw.words v (f v) = .ok (g v)) :
    enforce_node_consistency cw (vs.map (fun v => (v, f v))) =
      .ok (vs.map (fun v => (v, g v))) := by
  induction vs with
  | nil => rfl
  | cons v vs ih =>
      unfold enforce_node_consistency at *
      rw [List.map_cons, List.mapM_cons]
      rw [show (do
          let d ← encVar cw.words (v, f v).1 (v, f v).2
          return ((v, f v).1, d) : Except String (Variable × List Word)) =
        .ok (v, g v) from by
          rw [show (v, f v).2 = f v from rfl,
            show (v, f v).1 = v from rfl, h v (List.mem_cons_self v vs), exceptOk_bind]
          rfl]
      rw [exceptOk_bind, ih (fun u hu => h u (List.mem_cons_of_mem v hu)), exceptOk_bind]
      rfl

theorem enforce_map_err (cw : Crossword) (vs : List Variable) (f : Variable → List Word)
    (hex : ∃ v ∈ vs, ∃ w ∈ cw.words, v.length ≠ w.length)
    (habs : ∀ v ∈ vs, ∀ w ∈ cw.words, v.length ≠ w.length → w ∉ f v) :
    enforce_node_consistency cw (vs.map (fun v => (v, f v))) = .error "KeyError" := by
  induction vs with
  | nil => simp at hex
  | cons v vs ih =>
      unfold enforce_node_consistency at *
      rw [List.map_cons, List.mapM_cons]
      by_cases hv : ∃ w ∈ cw.words, v.length ≠ w.length
      · have herr : encVar cw.words v (f v) = .error "KeyError" :=
          encVar_err v cw.words (f v) hv
            (fun w hw hne => habs v (List.mem_cons_self v vs) w hw hne)
        rw [show (do
            let d ← encVar cw.words (v, f v).1 (v, f v).2
            return ((v, f v).1, d) : Except String (Variable × List Word)) =
          .error "KeyError" from by
            rw [show (v, f v).2 = f v from rfl, show (v, f v).1 = v from rfl, herr,
              exceptErr_bind]]
        rw [exceptErr_bind]
      · have hall : ∀ w ∈ cw.words, v.length = w.length := by
          intro w hw
          by_contra hne
          exact hv ⟨w, hw, hne⟩
        have hok : encVar cw.words v (f v) = .ok (f v) :=
          encVar_no_mismatch v cw.words (f v) hall
        rw [show (do
            let d ← encVar cw.words (v, f v).1 (v, f v).2
            return ((v, f v).1, d) : Except String (Variable × List Word)) =
          .ok (v, f v) from by
            rw [show (v, f v).2 = f v from rfl, show (v, f v).1 = v from rfl, hok,
              exceptOk_bind]
            rfl]
        rw [exceptOk_bind]
        have hex' : ∃ u ∈ vs, ∃ w ∈ cw.words, u.length ≠ w.length := by
          rcases hex with ⟨u, hu, w, hw, hne⟩
          rcases List.mem_cons.mp hu with he | hu'
          · subst he; exact absurd (hall w hw) hne
          · exact ⟨u, hu', w, hw, hne⟩
        rw [ih hex' (fun u hu => habs u (List.mem_cons_of_mem v hu)), exceptErr_bind]

theorem enforce_init_ok (cw : Crossword) (hnd : cw.words.Nodup) :
    enforce_node_consistency cw (initDomains cw) = .ok (nodeConsistentDomains cw) := by
  unfold initDomains nodeConsistentDomains
  exact enforce_map_ok cw cw.vars (fun _ => cw.words) _
    (fun v hv => encVar_full v cw.words hnd)

theorem domOf_map_mem (vs : List Variable) (g : Variable → List Word) (v : Variable)
    (hv : v ∈ vs) : domOf (vs.map (fun u => (u, g u))) v = g v := by
  induction vs with
  | nil => cases hv
  | cons u vs ih =>
      rcases List.mem_cons.mp hv with he | hv'
      · subst he
        simp [domOf, List.find?_cons]
      · by_cases huv : u = v
        · subst huv
          simp [domOf, List.find?_cons]
        · simpa [domOf, List.find?_cons, huv] using ih hv'

/-- Claim C7:  Starting from the initialized Domain Store (every domain a copy
of the full vocabulary), a single run of `enforce_node_consistency` succeeds
and leaves, for every slot `s`, exactly the vocabulary words of length
`s.length` — Python's `{w in words : len(w) == s.length}`, here the
order-preserving filter of the (duplicate-free) vocabulary.  The function is
pure in this embedding: it reads and produces only the Domain Store, so no
state outside the Domain Store is touched. -/
theorem enforce_node_consistency_spec (cw : Crossword) (hnd : cw.words.Nodup) :
    ∃ d1, enforce_node_consistency cw (initDomains cw) = .ok d1 ∧
      ∀ v ∈ cw.vars, domOf d1 v = cw.words.filter (fun w => decide (v.length = w.length)) := by
  refine ⟨nodeConsistentDomains cw, enforce_init_ok cw hnd, ?_⟩
  intro v hv
  exact domOf_map_mem cw.vars _ v hv

/-- Claim C7 witness:  A concrete puzzle: one across slot of length 3 and one
down slot of length 4 over vocabulary `{CAT, TREE}`. -/
theorem enforce_node_consistency_spec_witness :
    (let cw : Crossword := {
      vars := [⟨Direction.across, 0, 0, 3⟩, ⟨Direction.down, 0, 0, 4⟩],
      words := [['C','A','T'], ['T','R','E','E']],
      overlaps := [] }
    ∃ d1, enforce_node_consistency cw (initDomains cw) = .ok d1 ∧
      ∀ v ∈ cw.vars, domOf d1 v = cw.words.filter (fun w => decide (v.length = w.length))) := by
  exact enforce_node_consistency_spec _ (by decide)

/-- Claim C10:  `enforce_node_consistency` is not idempotent: it iterates over
the full vocabulary and removes with `set.remove`, so whenever the
vocabulary holds a word whose length differs from some slot's length, a
first run succeeds (removing those words) and a second run raises
`KeyError`.  The spec's "runs exactly once" is a hard precondition. -/
theorem enforce_node_consistency_second_run_keyerror (cw : Crossword)
    (hnd : cw.words.Nodup)
    (hex : ∃ v ∈ cw.vars, ∃ w ∈ cw.words, v.length ≠ w.length) :
    ∃ d1, enforce_node_consistency cw (initDomains cw) = .ok d1 ∧
      enforce_node_consistency cw d1 = .error "KeyError" := by
  refine ⟨nodeConsistentDomains cw, enforce_init_ok cw hnd, ?_⟩
  unfold nodeConsistentDomains
  apply enforce_map_err cw cw.vars _ hex
  intro v hv w hw hne hmem
  rw [List.mem_filter] at hmem
  exact hne (by simpa using hmem.2)

/-- Claim C10 witness:  Same concrete puzzle: `CAT` does not fit the length-4
slot (and `TREE` not the length-3 one), so the second run raises. -/
theorem enforce_node_consistency_second_run_keyerror_witness :
    (let cw : Crossword := {
      vars := [⟨Direction.across, 0, 0, 3⟩, ⟨Direction.down, 0, 0, 4⟩],
      words := [['C','A','T'], ['T','R','E','E']],
      overlaps := [] }
    ∃ d1, enforce_node_consistency cw (initDomains cw) = .ok d1 ∧
      enforce_node_consistency cw d1 = .error "KeyError") := by
  exact enforce_node_consistency_second_run_keyerror _ (by decide) (by decide)

theorem mapM_ok_of_forall {α β : Type} (f : α → Except String β) (g : α → β) :
    ∀ (l : List α), (∀ x ∈ l, f x = .ok (g x)) → l.mapM f = .ok (l.map g) := by
  intro l
  induction l with
  | nil => intro _; rfl
  | cons x xs ih =>
      intro h
      rw [List.mapM_cons, h x (List.mem_cons_self x xs), exceptOk_bind,
        ih (fun u hu => h u (List.mem_cons_of_mem x hu)), exceptOk_bind]
      rfl

theorem backtrack_complete (cw : Crossword) (doms : Domains) (a : Assign)
    (h : assignment_complete cw a = true) :
    backtrack cw doms a = .ok (some a) := by
  rw [backtrack.eq_def, if_pos h]

theorem backtrack_select_error (cw : Crossword) (doms : Domains) (a : Assign) (e : String)
    (h : assignment_complete cw a = false)
    (hsel : select_unassigned_variable cw doms a = .error e) :
    backtrack cw doms a = .error e := by
  rw [backtrack.eq_def, if_neg (by simp [h])]
  split
  · rename_i e' heq
    rw [hsel] at heq
    injection heq with h2
    rw [h2]
  · rename_i var heq
    rw [hsel] at heq
    cases heq

theorem backtrack_step (cw : Crossword) (doms : Domains) (a : Assign) (var : Variable)
    (h : assignment_complete cw a = false)
    (hsel : select_unassigned_variable cw doms a = .ok var) :
    backtrack cw doms a =
      tryValues cw doms a var (count_lt_of_select cw doms a var hsel)
        (order_domain_values cw doms var a) := by
  rw [backtrack.eq_def, if_neg (by simp [h])]
  split
  · rename_i e' heq
    rw [hsel] at heq
    cases heq
  · rename_i var' heq
    rw [hsel] at heq
    injection heq with h2
    subst h2
    rfl

theorem tryValues_nil (cw : Crossword) (doms : Domains) (a : Assign) (var : Variable)
    (hlt : ∀ val, count cw (dinsert a var val) < count cw a) :
    tryValues cw doms a var hlt [] = .ok none := by
  rw [tryValues.eq_def]

theorem tryValues_cons_err (cw : Crossword) (doms : Domains) (a : Assign) (var : Variable)
    (hlt : ∀ val, count cw (dinsert a var val) < count cw a) (val : Word) (rest : List Word)
    (e : String) (hc : consistent cw (dinsert a var val) = .error e) :
    tryValues cw doms a var hlt (val :: rest) = .error e := by
  rw [tryValues.eq_def]
  show (do
      let c ← consistent cw (dinsert a var val)
      if c then do
        let result ← backtrack cw doms (dinsert a var val)
        if truthy result then .ok result
        else tryValues cw doms a var hlt rest
      else tryValues cw doms a var hlt rest) = .error e
  rw [hc, exceptErr_bind]

theorem tryValues_cons_false (cw : Crossword) (doms : Domains) (a : Assign) (var : Variable)
    (hlt : ∀ val, count cw (dinsert a var val) < count cw a) (val : Word) (rest : List Word)
    (hc : consistent cw (dinsert a var val) = .ok false) :
    tryValues cw doms a var hlt (val :: rest) = tryValues cw doms a var hlt rest := by
  rw [tryValues.eq_def]
  show (do
      let c ← consistent cw (dinsert a var val)
      if c then do
        let result ← backtrack cw doms (dinsert a var val)
        if truthy result then .ok result
        else tryValues cw doms a var hlt rest
      else tryValues cw doms a var hlt rest) = _
  rw [hc, exceptOk_bind]
  simp

theorem tryValues_cons_true (cw : Crossword) (doms : Domains) (a : Assign) (var : Variable)
    (hlt : ∀ val, count cw (dinsert a var val) < count cw a) (val : Word) (rest : List Word)
    (res : Option Assign) (hc : consistent cw (dinsert a var val) = .ok true)
    (hb : backtrack cw doms (dinsert a var val) = .ok res) :
    tryValues cw doms a var hlt (val :: rest) =
      if truthy res then .ok res else tryValues cw doms a var hlt rest := by
  rw [tryValues.eq_def]
  show (do
      let c ← consistent cw (dinsert a var val)
      if c then do
        let result ← backtrack cw doms (dinsert a var val)
        if truthy result then .ok result
        else tryValues cw doms a var hlt rest
      else tryValues cw doms a var hlt rest) = _
  rw [hc, exceptOk_bind]
  simp only [if_pos]
  rw [hb, exceptOk_bind]

theorem tryValues_cons_true_err (cw : Crossword) (doms : Domains) (a : Assign) (var : Variable)
    (hlt : ∀ val, count cw (dinsert a var val) < count cw a) (val : Word) (rest : List Word)
    (e : String) (hc : consistent cw (dinsert a var val) = .ok true)
    (hb : backtrack cw doms (dinsert a var val) = .error e) :
    tryValues cw doms a var hlt (val :: rest) = .error e := by
  rw [tryValues.eq_def]
  show (do
      let c ← consistent cw (dinsert a var val)
      if c then do
        let result ← backtrack cw doms (dinsert a var val)
        if truthy result then .ok result
        else tryValues cw doms a var hlt rest
      else tryValues cw doms a var hlt rest) = _
  rw [hc, exceptOk_bind]
  simp only [if_pos]
  rw [hb, exceptErr_bind]

theorem alookup_of_mem_nodup (a : Assign) (v : Variable) (w : Word)
    (hnd : keysNodup a) (hmem : (v, w) ∈ a) : alookup a v = some w := by
  induction a with
  | nil => cases hmem
  | cons p rest ih =>
      unfold keysNodup at *
      rcases List.mem_cons.mp hmem with he | hm
      · rw [← he, alookup_cons]
        simp
      · have hpv : ¬ (p.1 = v) := by
          intro hc
          have : v ∈ rest.map (·.1) := by
            exact List.mem_map_of_mem _ hm
          rw [List.map_cons] at hnd
          rw [List.nodup_cons] at hnd
          exact hnd.1 (hc ▸ this)
      
        rw [alookup_cons, if_neg hpv]
        exact ih (by rw [List.map_cons] at hnd; exact hnd.of_cons) hm

theorem overlapLookup_mem (cw : Crossword) (x y : Variable) (ij : Nat × Nat)
    (h : overlapLookup cw x y = some ij) : ((x, y), ij) ∈ cw.overlaps := by
  unfold overlapLookup at h
  cases hf : cw.overlaps.find? (fun e => decide (e.1 = (x, y))) with
  | none => rw [hf] at h; cases h
  | some e =>
      rw [hf] at h
      simp at h
      have hp := List.find?_some hf
      have hmem := List.mem_of_find?_eq_some hf
      have h1 : e.1 = (x, y) := by simpa using hp
      have : e = ((x, y), ij) := by
        cases e
        simp_all
      rwa [this] at hmem

theorem mem_neighbors_iff (cw : Crossword) (x z : Variable) :
    z ∈ neighbors cw x ↔ z ∈ cw.vars ∧ (overlapLookup cw x z).isSome := by
  unfold neighbors
  simp [List.mem_filter]

theorem getD_of_getElem? (w : Word) (i : Nat) (c : Char) (h : w[i]? = some c) :
    w.getD i ' ' = c := by
  rw [List.getD_eq_getElem?_getD, h]
  rfl

theorem strIdx_ok_of_lt (w : Word) (i : Nat) (h : i < w.length) :
    strIdx w i = .ok (w.getD i ' ') := by
  unfold strIdx
  have : w[i]? = some w[i] := List.getElem?_eq_getElem h
  rw [this]
  rw [getD_of_getElem? w i _ this]

theorem assignment_complete_iff (cw : Crossword) (a : Assign) :
    assignment_complete cw a = true ↔ CompleteA cw a := by
  unfold assignment_complete CompleteA
  rw [List.all_eq_true]

theorem strIdx_ok_getD (w : Word) (i : Nat) (c : Char) (h : strIdx w i = .ok c) :
    w.getD i ' ' = c := by
  unfold strIdx at h
  cases hw : w[i]? with
  | none => rw [hw] at h; cases h
  | some c' =>
      rw [hw] at h
      injection h with h2
      exact (getD_of_getElem? w i c' hw).trans h2

theorem dupWord_iff (a : Assign) (key : Variable) (var : Word) (hnd : keysNodup a) :
    dupWord a key var = true ↔ ∃ q ∈ a, q.1 ≠ key ∧ q.2 = var := by
  unfold dupWord
  rw [List.any_eq_true]
  constructor
  · rintro ⟨q, hq, hcond⟩
    rw [Bool.and_eq_true, decide_eq_true_eq, decide_eq_true_eq] at hcond
    have hlq := alookup_of_mem_nodup a q.1 q.2 hnd hq
    rw [hlq] at hcond
    exact ⟨q, hq, hcond.1, Option.some.inj hcond.2⟩
  · rintro ⟨q, hq, hne, hval⟩
    refine ⟨q, hq, ?_⟩
    rw [Bool.and_eq_true, decide_eq_true_eq, decide_eq_true_eq]
    exact ⟨hne, by rw [alookup_of_mem_nodup a q.1 q.2 hnd hq, hval]⟩

theorem consistentNbrs_nil (cw : Crossword) (a : Assign) (key : Variable) (var : Word) :
    consistentNbrs cw a key var [] = .ok true := rfl

theorem consistentNbrs_cons_none (cw : Crossword) (a : Assign) (key : Variable) (var : Word)
    (nbr : Variable) (rest : List Variable) (hlook : alookup a nbr = none) :
    consistentNbrs cw a key var (nbr :: rest) = consistentNbrs cw a key var rest := by
  conv_lhs => unfold consistentNbrs
  rw [hlook]

theorem consistentNbrs_cons_noov (cw : Crossword) (a : Assign) (key : Variable) (var : Word)
    (nbr : Variable) (rest : List Variable) (wn : Word) (hlook : alookup a nbr = some wn)
    (hov : overlapLookup cw key nbr = none) :
    consistentNbrs cw a key var (nbr :: rest) = .error "TypeError" := by
  conv_lhs => unfold consistentNbrs
  rw [hlook, hov]

theorem consistentNbrs_cons_some (cw : Crossword) (a : Assign) (key : Variable) (var : Word)
    (nbr : Variable) (rest : List Variable) (wn : Word) (i j : Nat)
    (hlook : alookup a nbr = some wn) (hov : overlapLookup cw key nbr = some (i, j)) :
    consistentNbrs cw a key var (nbr :: rest) = (do
      let c1 ← strIdx var i
      let c2 ← strIdx wn j
      if c1 = c2 then consistentNbrs cw a key var rest else .ok false) := by
  conv_lhs => unfold consistentNbrs
  rw [hlook, hov]

theorem consistentNbrs_true_char (cw : Crossword) (a : Assign) (key : Variable) (var : Word) :
    ∀ l, consistentNbrs cw a key var l = .ok true →
      ∀ nbr ∈ l, ∀ wn, alookup a nbr = some wn → ∀ i j,
        overlapLookup cw key nbr = some (i, j) → var.getD i ' ' = wn.getD j ' ' := by
  intro l
  induction l with
  | nil =>
      intro _ nbr hnbr
      cases hnbr
  | cons nbr0 rest ih =>
      intro h nbr hnbr wn hwn i j hov
      cases hlook : alookup a nbr0 with
      | none =>
          rw [consistentNbrs_cons_none cw a key var nbr0 rest hlook] at h
          rcases List.mem_cons.mp hnbr with he | hm
          · subst he
            rw [hlook] at hwn
            cases hwn
          · exact ih h nbr hm wn hwn i j hov
      | some wn0 =>
          cases hov0 : overlapLookup cw key nbr0 with
          | none =>
              rw [consistentNbrs_cons_noov cw a key var nbr0 rest wn0 hlook hov0] at h
              cases h
          | some ij0 =>
              obtain ⟨i0, j0⟩ := ij0
              rw [consistentNbrs_cons_some cw a key var nbr0 rest wn0 i0 j0 hlook hov0] at h
              cases hs1 : strIdx var i0 with
              | error e => rw [hs1, exceptErr_bind] at h; cases h
              | ok c1 =>
                  rw [hs1, exceptOk_bind] at h
                  cases hs2 : strIdx wn0 j0 with
                  | error e => rw [hs2, exceptErr_bind] at h; cases h
                  | ok c2 =>
                      rw [hs2, exceptOk_bind] at h
                      by_cases hc : c1 = c2
                      · rw [if_pos hc] at h
                        rcases List.mem_cons.mp hnbr with he | hm
                        · subst he
                          rw [hlook] at hwn
                          injection hwn with hwn2
                          subst hwn2
                          rw [hov0] at hov
                          injection hov with hov2
                          have hij : (i, j) = (i0, j0) := hov2.symm
                          have hi : i = i0 := congrArg Prod.fst hij
                          have hj : j = j0 := congrArg Prod.snd hij
                          rw [hi, hj]
                          rw [strIdx_ok_getD var i0 c1 hs1, strIdx_ok_getD wn0 j0 c2 hs2, hc]
                        · exact ih h nbr hm wn hwn i j hov
                      · rw [if_neg hc] at h
                        cases h

theorem consistentLoop_nil (cw : Crossword) (a : Assign) :
    consistentLoop cw a [] = .ok true := rfl

theorem consistentLoop_cons_lenbad (cw : Crossword) (a : Assign) (key : Variable) (var : Word)
    (rest : List (Variable × Word)) (h : key.length ≠ var.length) :
    consistentLoop cw a ((key, var) :: rest) = .ok false := by
  conv_lhs => unfold consistentLoop
  rw [if_pos h]

theorem consistentLoop_cons_dup (cw : Crossword) (a : Assign) (key : Variable) (var : Word)
    (rest : List (Variable × Word)) (hlen : ¬ (key.length ≠ var.length))
    (hdup : dupWord a key var = true) :
    consistentLoop cw a ((key, var) :: rest) = .ok false := by
  conv_lhs => unfold consistentLoop
  rw [if_neg hlen, if_pos hdup]

theorem consistentLoop_cons_go (cw : Crossword) (a : Assign) (key : Variable) (var : Word)
    (rest : List (Variable × Word)) (hlen : ¬ (key.length ≠ var.length))
    (hdup : ¬ (dupWord a key var = true)) :
    consistentLoop cw a ((key, var) :: rest) = (do
      let ok ← consistentNbrs cw a key var (neighbors cw key)
      if ok then consistentLoop cw a rest else .ok false) := by
  conv_lhs => unfold consistentLoop
  rw [if_neg hlen, if_neg hdup]

theorem consistentLoop_true_spec (cw : Crossword) (a : Assign) :
    ∀ l, consistentLoop cw a l = .ok true →
      ∀ p ∈ l, p.1.length = p.2.length ∧ dupWord a p.1 p.2 = false ∧
        consistentNbrs cw a p.1 p.2 (neighbors cw p.1) = .ok true := by
  intro l
  induction l with
  | nil =>
      intro _ p hp
      cases hp
  | cons q rest ih =>
      intro h p hp
      obtain ⟨key, var⟩ := q
      by_cases hlen : key.length ≠ var.length
      · rw [consistentLoop_cons_lenbad cw a key var rest hlen] at h
        cases h
      · by_cases hdup : dupWord a key var = true
        · rw [consistentLoop_cons_dup cw a key var rest hlen hdup] at h
          cases h
        · rw [consistentLoop_cons_go cw a key var rest hlen hdup] at h
          cases hnb : consistentNbrs cw a key var (neighbors cw key) with
          | error e => rw [hnb, exceptErr_bind] at h; cases h
          | ok b =>
              rw [hnb, exceptOk_bind] at h
              cases b with
              | false => rw [if_neg (by simp)] at h; cases h
              | true =>
                  rw [if_pos rfl] at h
                  rcases List.mem_cons.mp hp with he | hm
                  · subst he
                    exact ⟨Classical.byContradiction (fun hc => hlen (fun hx => hc hx)),
                      Bool.eq_false_iff.mpr hdup, hnb⟩
                  · exact ih h p hm

/-- Forward direction of C6: when `consistent` answers `True`, the section 3
invariants hold. -/
theorem consistent_true_to_spec (cw : Crossword) (a : Assign)
    (hkeys : ∀ p ∈ a, p.1 ∈ cw.vars) (hnd : keysNodup a)
    (h : consistent cw a = .ok true) : SpecConsistent cw a := by
  have hall := consistentLoop_true_spec cw a a h
  refine ⟨?_, ?_, ?_⟩
  · intro p hp
    exact (hall p hp).1
  · intro p hp q hq hne hval
    have hdup := (hall p hp).2.1
    have : dupWord a p.1 p.2 = true := by
      rw [dupWord_iff a p.1 p.2 hnd]
      exact ⟨q, hq, fun hc => hne hc.symm, hval.symm⟩
    rw [this] at hdup
    cases hdup
  · intro p hp q hq
    unfold crossPairOK
    cases hov : overlapLookup cw p.1 q.1 with
    | none => rfl
    | some ij =>
        obtain ⟨i, j⟩ := ij
        have hnbr : q.1 ∈ neighbors cw p.1 := by
          rw [mem_neighbors_iff]
          exact ⟨hkeys q hq, by rw [hov]; rfl⟩
        have hchar := consistentNbrs_true_char cw a p.1 p.2 (neighbors cw p.1)
          (hall p hp).2.2 q.1 hnbr q.2 (alookup_of_mem_nodup a q.1 q.2 hnd hq) i j hov
        exact decide_eq_true hchar

theorem overlap_bounds (cw : Crossword) (hwf : WF cw) (x y : Variable) (i j : Nat)
    (hov : overlapLookup cw x y = some (i, j)) : i < x.length ∧ j < y.length := by
  have hmem := overlapLookup_mem cw x y (i, j) hov
  have := hwf.2.2.2 ((x, y), (i, j)) hmem
  exact ⟨this.2.2.2.1, this.2.2.2.2.1⟩

theorem consistentNbrs_no_error (cw : Crossword) (a : Assign) (key : Variable) (var : Word)
    (hwf : WF cw) (hvl : key.length = var.length) (hlen : LengthsOK a) :
    ∀ l, (∀ nbr ∈ l, nbr ∈ neighbors cw key) →
      ∃ b, consistentNbrs cw a key var l = .ok b := by
  intro l
  induction l with
  | nil => exact fun _ => ⟨true, rfl⟩
  | cons nbr rest ih =>
      intro hl
      cases hlook : alookup a nbr with
      | none =>
          rw [consistentNbrs_cons_none cw a key var nbr rest hlook]
          exact ih (fun u hu => hl u (List.mem_cons_of_mem nbr hu))
      | some wn =>
          have hnbr := hl nbr (List.mem_cons_self nbr rest)
          rw [mem_neighbors_iff] at hnbr
          cases hov : overlapLookup cw key nbr with
          | none => rw [hov] at hnbr; cases hnbr.2
          | some ij =>
              obtain ⟨i, j⟩ := ij
              have hb := overlap_bounds cw hwf key nbr i j hov
              have hs1 : strIdx var i = .ok (var.getD i ' ') :=
                strIdx_ok_of_lt var i (hvl ▸ hb.1)
              have hwn : (nbr, wn) ∈ a := alookup_mem hlook
              have hs2 : strIdx wn j = .ok (wn.getD j ' ') :=
                strIdx_ok_of_lt wn j ((hlen (nbr, wn) hwn) ▸ hb.2)
              rw [consistentNbrs_cons_some cw a key var nbr rest wn i j hlook hov,
                hs1, exceptOk_bind, hs2, exceptOk_bind]
              by_cases hc : var.getD i ' ' = wn.getD j ' '
              · rw [if_pos hc]
                exact ih (fun u hu => hl u (List.mem_cons_of_mem nbr hu))
              · rw [if_neg hc]
                exact ⟨false, rfl⟩

theorem consistentNbrs_true_of (cw : Crossword) (a : Assign) (key : Variable) (var : Word)
    (hwf : WF cw) (hvl : key.length = var.length) (hlen : LengthsOK a)
    (hchar : ∀ nbr wn, alookup a nbr = some wn → ∀ i j,
      overlapLookup cw key nbr = some (i, j) → var.getD i ' ' = wn.getD j ' ') :
    ∀ l, (∀ nbr ∈ l, nbr ∈ neighbors cw key) →
      consistentNbrs cw a key var l = .ok true := by
  intro l
  induction l with
  | nil => exact fun _ => rfl
  | cons nbr rest ih =>
      intro hl
      cases hlook : alookup a nbr with
      | none =>
          rw [consistentNbrs_cons_none cw a key var nbr rest hlook]
          exact ih (fun u hu => hl u (List.mem_cons_of_mem nbr hu))
      | some wn =>
          have hnbr := hl nbr (List.mem_cons_self nbr rest)
          rw [mem_neighbors_iff] at hnbr
          cases hov : overlapLookup cw key nbr with
          | none => rw [hov] at hnbr; cases hnbr.2
          | some ij =>
              obtain ⟨i, j⟩ := ij
              have hb := overlap_bounds cw hwf key nbr i j hov
              have hs1 : strIdx var i = .ok (var.getD i ' ') :=
                strIdx_ok_of_lt var i (hvl ▸ hb.1)
              have hwn : (nbr, wn) ∈ a := alookup_mem hlook
              have hs2 : strIdx wn j = .ok (wn.getD j ' ') :=
                strIdx_ok_of_lt wn j ((hlen (nbr, wn) hwn) ▸ hb.2)
              rw [consistentNbrs_cons_some cw a key var nbr rest wn i j hlook hov,
                hs1, exceptOk_bind, hs2, exceptOk_bind,
                if_pos (hchar nbr wn hlook i j hov)]
              exact ih (fun u hu => hl u (List.mem_cons_of_mem nbr hu))

theorem consistentLoop_no_error (cw : Crossword) (a : Assign) (hwf : WF cw)
    (hlen : LengthsOK a) :
    ∀ l, (∀ p ∈ l, p ∈ a) → ∃ b, consistentLoop cw a l = .ok b := by
  intro l
  induction l with
  | nil => exact fun _ => ⟨true, rfl⟩
  | cons q rest ih =>
      intro hl
      obtain ⟨key, var⟩ := q
      have hmem : (key, var) ∈ a := hl (key, var) (List.mem_cons_self _ rest)
      have hvl : key.length = var.length := hlen (key, var) hmem
      by_cases hdup : dupWord a key var = true
      · exact ⟨false, consistentLoop_cons_dup cw a key var rest (by simp [hvl]) hdup⟩
      · rw [consistentLoop_cons_go cw a key var rest (by simp [hvl]) hdup]
        obtain ⟨b, hb⟩ := consistentNbrs_no_error cw a key var hwf hvl hlen
          (neighbors cw key) (fun u hu => hu)
        rw [hb, exceptOk_bind]
        cases b with
        | false => exact ⟨false, by rw [if_neg (by simp)]⟩
        | true =>
            rw [if_pos rfl]
            exact ih (fun u hu => hl u (List.mem_cons_of_mem _ hu))

theorem consistentLoop_true_of (cw : Crossword) (a : Assign) (hwf : WF cw)
    (hnd : keysNodup a) (hspec : SpecConsistent cw a) :
    ∀ l, (∀ p ∈ l, p ∈ a) → consistentLoop cw a l = .ok true := by
  obtain ⟨hlen, hdist, hcross⟩ := hspec
  intro l
  induction l with
  | nil => exact fun _ => rfl
  | cons q rest ih =>
      intro hl
      obtain ⟨key, var⟩ := q
      have hmem : (key, var) ∈ a := hl (key, var) (List.mem_cons_self _ rest)
      have hvl : key.length = var.length := hlen (key, var) hmem
      have hdup : ¬ (dupWord a key var = true) := by
        rw [dupWord_iff a key var hnd]
        rintro ⟨q, hq, hqne, hqval⟩
        exact hdist (key, var) hmem q hq (fun hc => hqne hc.symm) hqval.symm
      rw [consistentLoop_cons_go cw a key var rest (by simp [hvl]) hdup]
      have hchar : ∀ nbr wn, alookup a nbr = some wn → ∀ i j,
          overlapLookup cw key nbr = some (i, j) → var.getD i ' ' = wn.getD j ' ' := by
        intro nbr wn hlook i j hov
        have hq : (nbr, wn) ∈ a := alookup_mem hlook
        have := hcross (key, var) hmem (nbr, wn) hq
        unfold crossPairOK at this
        rw [hov] at this
        exact of_decide_eq_true this
      rw [consistentNbrs_true_of cw a key var hwf hvl hlen hchar (neighbors cw key)
        (fun u hu => hu), exceptOk_bind, if_pos rfl]
      exact ih (fun u hu => hl u (List.mem_cons_of_mem _ hu))

/-- Combined characterization of `consistent`, both directions. -/
theorem consistent_true_iff_spec_aux (cw : Crossword) (a : Assign) (hwf : WF cw)
    (hkeys : ∀ p ∈ a, p.1 ∈ cw.vars) (hnd : keysNodup a) :
    consistent cw a = .ok true ↔ SpecConsistent cw a := by
  constructor
  · exact consistent_true_to_spec cw a hkeys hnd
  · intro hspec
    exact consistentLoop_true_of cw a hwf hnd hspec a (fun p hp => hp)

/-- Claim C6: `consistent(assignment)` returns `True` exactly when every
assigned word's length equals its slot's length, no two distinct assigned
slots hold the same word, and every pair of assigned slots with an overlap
entry `(i, j)` agrees at those character offsets.  `consistent` reads only
the puzzle geometry and the assignment's own entries — its definition does
not take the Domain Store as an argument at all.  (Hypotheses: a well-formed
puzzle, assignment keys that are puzzle slots, and — as for any Python dict
— at most one entry per slot.) -/
theorem consistent_true_iff_spec (cw : Crossword) (a : Assign) (hwf : WF cw)
    (hkeys : ∀ p ∈ a, p.1 ∈ cw.vars) (hnd : keysNodup a) :
    consistent cw a = .ok true ↔ SpecConsistent cw a :=
  consistent_true_iff_spec_aux cw a hwf hkeys hnd

/-- Claim C6 witness:  The spec's crossing scenario: slots A (across, length
3) and B (down, length 3) crossing at their first characters, with
`{A: CAT, B: COW}` — consistent; checked concretely through the theorem. -/
theorem consistent_true_iff_spec_witness :
    (let A : Variable := ⟨Direction.across, 0, 0, 3⟩
    let B : Variable := ⟨Direction.down, 0, 0, 3⟩
    let cw : Crossword := {
      vars := [A, B],
      words := [['C','A','T'], ['C','O','W']],
      overlaps := [((A, B), (0, 0)), ((B, A), (0, 0))] }
    let a : Assign := [(A, ['C','A','T']), (B, ['C','O','W'])]
    consistent cw a = .ok true ↔ SpecConsistent cw a) := by
  exact consistent_true_iff_spec _ _ (by decide) (by decide) (by decide)

theorem filter_orderedInsert_score (s : Nat) (x : Word × Nat) (l : List (Word × Nat)) :
    (List.orderedInsert lcvLe x l).filter (fun q => decide (q.2 = s)) =
      if x.2 = s then x :: l.filter (fun q => decide (q.2 = s))
      else l.filter (fun q => decide (q.2 = s)) := by
  induction l with
  | nil =>
      by_cases hx : x.2 = s
      · simp [List.orderedInsert, List.filter, hx]
      · simp [List.orderedInsert, List.filter, hx]
  | cons b l ih =>
      by_cases hr : lcvLe x b
      · rw [List.orderedInsert, if_pos hr]
        by_cases hx : x.2 = s
        · rw [if_pos hx]
          rw [List.filter_cons, if_pos (by simpa using hx)]
        · rw [if_neg hx]
          rw [List.filter_cons, if_neg (by simpa using hx)]
      · rw [List.orderedInsert, if_neg hr]
        have hbx : b.2 < x.2 := by
          unfold lcvLe at hr
          omega
        by_cases hx : x.2 = s
        · rw [if_pos hx]
          have hb : ¬ (b.2 = s) := by omega
          rw [List.filter_cons, if_neg (by simpa using hb), ih, if_pos hx,
            List.filter_cons, if_neg (by simpa using hb)]
        · rw [if_neg hx]
          by_cases hb : b.2 = s
          · rw [List.filter_cons, if_pos (by simpa using hb), ih, if_neg hx,
              List.filter_cons, if_pos (by simpa using hb)]
          · rw [List.filter_cons, if_neg (by simpa using hb), ih, if_neg hx,
              List.filter_cons, if_neg (by simpa using hb)]

/-- The stable sort preserves, within each score class, the original order:
filtering a score class out of the sorted list gives the same list as
filtering it out of the input. -/
theorem filter_insertionSort_score (s : Nat) (l : List (Word × Nat)) :
    (l.insertionSort lcvLe).filter (fun q => decide (q.2 = s)) =
      l.filter (fun q => decide (q.2 = s)) := by
  induction l with
  | nil => rfl
  | cons x l ih =>
      rw [List.insertionSort, filter_orderedInsert_score s x (l.insertionSort lcvLe), ih]
      by_cases hx : x.2 = s
      · rw [if_pos hx, List.filter_cons, if_pos (by simpa using hx)]
      · rw [if_neg hx, List.filter_cons, if_neg (by simpa using hx)]

theorem filter_map_fst_score (score : Word → Nat) (s : Nat) :
    ∀ L : List (Word × Nat), (∀ q ∈ L, q.2 = score q.1) →
      (L.map (·.1)).filter (fun w => decide (score w = s)) =
        (L.filter (fun q => decide (q.2 = s))).map (·.1) := by
  intro L
  induction L with
  | nil => intro _; rfl
  | cons q L ih =>
      intro h
      have hq : q.2 = score q.1 := h q (List.mem_cons_self q L)
      rw [List.map_cons, List.filter_cons, List.filter_cons]
      by_cases hs : score q.1 = s
      · rw [if_pos (by simpa using hs), if_pos (by simp [hq, hs]), List.map_cons,
          ih (fun u hu => h u (List.mem_cons_of_mem q hu))]
      · rw [if_neg (by simpa using hs), if_neg (by simp [hq, hs]),
          ih (fun u hu => h u (List.mem_cons_of_mem q hu))]

/-- Combined characterization of `order_domain_values`. -/
theorem order_domain_values_spec_aux (cw : Crossword) (doms : Domains) (var : Variable)
    (a : Assign) :
    ((domOf doms var).length = 1 → order_domain_values cw doms var a = domOf doms var) ∧
    (order_domain_values cw doms var a).Perm (domOf doms var) ∧
    List.Pairwise (fun v w => lcvScore cw doms a var v ≤ lcvScore cw doms a var w)
      (order_domain_values cw doms var a) ∧
    ∀ s, (order_domain_values cw doms var a).filter
        (fun w => decide (lcvScore cw doms a var w = s)) =
      (domOf doms var).filter (fun w => decide (lcvScore cw doms a var w = s)) := by
  by_cases hone : (domOf doms var).length = 1
  · have hodv : order_domain_values cw doms var a = domOf doms var := by
      unfold order_domain_values
      rw [if_pos hone]
    refine ⟨fun _ => hodv, hodv ▸ List.Perm.refl _, ?_, fun s => by rw [hodv]⟩
    rw [hodv]
    obtain ⟨w, hw⟩ := List.length_eq_one.mp hone
    rw [hw]
    exact List.pairwise_singleton _ w
  · have hodv : order_domain_values cw doms var a =
        (((domOf doms var).map (fun val => (val, lcvScore cw doms a var val))).insertionSort
          lcvLe).map (·.1) := by
      unfold order_domain_values
      rw [if_neg hone]
    set pl := (domOf doms var).map (fun val => (val, lcvScore cw doms a var val)) with hpl
    have hperm : (pl.insertionSort lcvLe).Perm pl := List.perm_insertionSort lcvLe pl
    have hentries : ∀ q ∈ pl.insertionSort lcvLe, q.2 = lcvScore cw doms a var q.1 := by
      intro q hq
      have hq2 : q ∈ pl := hperm.mem_iff.mp hq
      rw [hpl] at hq2
      rcases List.mem_map.mp hq2 with ⟨val, hval, he⟩
      rw [← he]
    have hfst : pl.map (·.1) = domOf doms var := by
      rw [hpl, List.map_map]
      rw [show ((·.1) ∘ fun val : Word => (val, lcvScore cw doms a var val)) = id from rfl]
      exact List.map_id _
    refine ⟨fun hc => absurd hc hone, ?_, ?_, ?_⟩
    · rw [hodv, ← hfst]
      exact hperm.map _
    · rw [hodv]
      rw [List.pairwise_map]
      have hsorted : List.Pairwise lcvLe (pl.insertionSort lcvLe) :=
        List.sorted_insertionSort lcvLe pl
      refine List.Pairwise.imp_of_mem ?_ hsorted
      intro q1 q2 h1 h2 hle
      rw [← hentries q1 h1, ← hentries q2 h2]
      exact hle
    · intro s
      rw [hodv,
        filter_map_fst_score (lcvScore cw doms a var) s (pl.insertionSort lcvLe) hentries,
        filter_insertionSort_score s pl,
        ← filter_map_fst_score (lcvScore cw doms a var) s pl ?hpl2, hfst]
      case hpl2 =>
        intro q hq
        rw [hpl] at hq
        rcases List.mem_map.mp hq with ⟨val, hval, he⟩
        rw [← he]

/-- Claim C9: `order_domain_values(var, assignment)`: with exactly one
candidate in the domain it is returned at once (first conjunct; by
definition this branch computes no scores); in every case the result is a
permutation of `domain(var)` that is sorted ascending by the LCV score
(the number of (unassigned neighbor, neighbor candidate) pairs the value
rules out, i.e. disagreeing at the overlap offsets) and, within equal
scores, preserves the original domain order (the filter of every score
class is unchanged — the characterization of a stable sort). -/
theorem order_domain_values_spec (cw : Crossword) (doms : Domains) (var : Variable)
    (a : Assign) :
    ((domOf doms var).length = 1 → order_domain_values cw doms var a = domOf doms var) ∧
    (order_domain_values cw doms var a).Perm (domOf doms var) ∧
    List.Pairwise (fun v w => lcvScore cw doms a var v ≤ lcvScore cw doms a var w)
      (order_domain_values cw doms var a) ∧
    ∀ s, (order_domain_values cw doms var a).filter
        (fun w => decide (lcvScore cw doms a var w = s)) =
      (domOf doms var).filter (fun w => decide (lcvScore cw doms a var w = s)) :=
  order_domain_values_spec_aux cw doms var a

theorem selEntries_ok (cw : Crossword) (doms : Domains) (l : List Variable)
    (hdeg : ∀ v ∈ l, (neighbors cw v).length ≠ 0) :
    l.mapM (selEntry cw doms) = .ok (l.map (fun v =>
      (v, (domOf doms v).length, (1 : ℚ) / ((neighbors cw v).length : ℚ)))) := by
  apply mapM_ok_of_forall
  intro v hv
  unfold selEntry
  rw [if_neg (hdeg v hv)]

theorem insertionSort_head_min {α : Type} (r : α → α → Prop) [DecidableRel r]
    [IsTotal α r] [IsTrans α r] (l : List α) (h : α) (t : List α)
    (hs : l.insertionSort r = h :: t) : ∀ b ∈ l, r h b := by
  intro b hb
  have hperm := List.perm_insertionSort r l
  rw [hs] at hperm
  have hbmem : b ∈ h :: t := hperm.symm.mem_iff.mp hb
  have hsorted : List.Sorted r (h :: t) := hs ▸ List.sorted_insertionSort r l
  rcases List.mem_cons.mp hbmem with he | hm
  · subst he
    rcases IsTotal.total (r := r) b b with h1 | h1 <;> exact h1
  · exact List.rel_of_sorted_cons hsorted b hm

/-- The MRV + degree selection property of `select_unassigned_variable`
(for assignments leaving at least one slot unassigned, on puzzles where
every unassigned slot has at least one neighbor). -/
theorem select_unassigned_variable_spec_aux (cw : Crossword) (doms : Domains) (a : Assign)
    (hne : cw.vars.filter (fun v => !(aHas a v)) ≠ [])
    (hdeg : ∀ v ∈ cw.vars.filter (fun v => !(aHas a v)), (neighbors cw v).length ≠ 0) :
    ∃ var, select_unassigned_variable cw doms a = .ok var ∧
      var ∈ cw.vars ∧ aHas a var = false ∧
      (∀ u ∈ cw.vars, aHas a u = false →
        (domOf doms var).length ≤ (domOf doms u).length) ∧
      (∀ u ∈ cw.vars, aHas a u = false →
        (domOf doms u).length = (domOf doms var).length →
        (neighbors cw u).length ≤ (neighbors cw var).length) := by
  set xs := cw.vars.filter (fun v => !(aHas a v)) with hxs
  set f : Variable → Variable × Nat × ℚ := fun v =>
    (v, (domOf doms v).length, (1 : ℚ) / ((neighbors cw v).length : ℚ)) with hf
  have hmap : xs.mapM (selEntry cw doms) = .ok (xs.map f) := selEntries_ok cw doms xs hdeg
  have hmem_of : ∀ u, u ∈ cw.vars → aHas a u = false → u ∈ xs := by
    intro u hu1 hu2
    rw [hxs, List.mem_filter]
    exact ⟨hu1, by simp [hu2]⟩
  have hxs_mem : ∀ v ∈ xs, v ∈ cw.vars ∧ aHas a v = false := by
    intro v hv
    rw [hxs, List.mem_filter] at hv
    exact ⟨hv.1, by simpa using hv.2⟩
  cases hxsc : xs with
  | nil => exact absurd hxsc hne
  | cons v1 rest =>
      cases hrest : rest with
      | nil =>
          refine ⟨v1, ?_, ?_⟩
          · unfold select_unassigned_variable
            rw [← hxs, hmap, hxsc, hrest]
            rfl
          · have hv1 := hxs_mem v1 (by rw [hxsc, hrest]; exact List.mem_cons_self v1 [])
            refine ⟨hv1.1, hv1.2, ?_, ?_⟩
            · intro u hu1 hu2
              have : u ∈ xs := hmem_of u hu1 hu2
              rw [hxsc, hrest] at this
              rcases List.mem_cons.mp this with he | hm
              · subst he; exact Nat.le_refl _
              · cases hm
            · intro u hu1 hu2 _
              have : u ∈ xs := hmem_of u hu1 hu2
              rw [hxsc, hrest] at this
              rcases List.mem_cons.mp this with he | hm
              · subst he; exact Nat.le_refl _
              · cases hm
      | cons v2 rest2 =>
          have hmapped : xs.map f = f v1 :: f v2 :: rest2.map f := by
            rw [hxsc, hrest, List.map_cons, List.map_cons]
          cases hs : (xs.map f).insertionSort selLe with
          | nil =>
              have hperm := List.perm_insertionSort selLe (xs.map f)
              rw [hs] at hperm
              have := hperm.symm.eq_nil
              rw [hmapped] at this
              cases this
          | cons e0 t0 =>
              have hmin : ∀ b ∈ xs.map f, selLe e0 b :=
                insertionSort_head_min selLe (xs.map f) e0 t0 hs
              have he0mem : e0 ∈ xs.map f := by
                have hperm := List.perm_insertionSort selLe (xs.map f)
                rw [hs] at hperm
                exact hperm.mem_iff.mp (List.mem_cons_self e0 t0)
              rcases List.mem_map.mp he0mem with ⟨v0, hv0, hfe⟩
              refine ⟨v0, ?_, ?_⟩
              · unfold select_unassigned_variable
                rw [← hxs, hmap, hmapped]
                rw [hmapped] at hs
                show (match (f v1 :: f v2 :: rest2.map f).insertionSort selLe with
                    | e :: _ => (Except.ok e.1 : Except String Variable)
                    | [] => .error "IndexError") = .ok v0
                rw [hs, ← hfe]
              · have hv0p := hxs_mem v0 hv0
                refine ⟨hv0p.1, hv0p.2, ?_, ?_⟩
                · intro u hu1 hu2
                  have hu := hmem_of u hu1 hu2
                  have hle := hmin (f u) (List.mem_map_of_mem f hu)
                  rw [← hfe] at hle
                  unfold selLe at hle
                  rw [hf] at hle
                  simp only at hle
                  rcases hle with h1 | ⟨h1, _⟩
                  · exact Nat.le_of_lt h1
                  · exact Nat.le_of_eq h1
                · intro u hu1 hu2 htie
                  have hu := hmem_of u hu1 hu2
                  have hle := hmin (f u) (List.mem_map_of_mem f hu)
                  rw [← hfe] at hle
                  unfold selLe at hle
                  rw [hf] at hle
                  simp only at hle
                  rcases hle with h1 | ⟨_, h2⟩
                  · omega
                  · have hposu : (0 : ℚ) < ((neighbors cw u).length : ℚ) := by
                      have := hdeg u (hmem_of u hu1 hu2)
                      exact_mod_cast Nat.pos_of_ne_zero this
                    have hposv : (0 : ℚ) < ((neighbors cw v0).length : ℚ) := by
                      have := hdeg v0 hv0
                      exact_mod_cast Nat.pos_of_ne_zero this
                    have := (one_div_le_one_div hposv hposu).mp h2
                    exact_mod_cast this

/-- Claim C8 (amended): for every assignment leaving at least one slot
unassigned, provided every unassigned slot has at least one neighbor,
`select_unassigned_variable` returns a slot not present in the assignment
with minimum remaining domain size (counted from the Domain Store), ties
broken in favor of the maximum number of neighbors. -/
theorem select_unassigned_variable_spec (cw : Crossword) (doms : Domains) (a : Assign)
    (hne : cw.vars.filter (fun v => !(aHas a v)) ≠ [])
    (hdeg : ∀ v ∈ cw.vars.filter (fun v => !(aHas a v)), (neighbors cw v).length ≠ 0) :
    ∃ var, select_unassigned_variable cw doms a = .ok var ∧
      var ∈ cw.vars ∧ aHas a var = false ∧
      (∀ u ∈ cw.vars, aHas a u = false →
        (domOf doms var).length ≤ (domOf doms u).length) ∧
      (∀ u ∈ cw.vars, aHas a u = false →
        (domOf doms u).length = (domOf doms var).length →
        (neighbors cw u).length ≤ (neighbors cw var).length) :=
  select_unassigned_variable_spec_aux cw doms a hne hdeg

theorem ac3_trace_C4 : ac3 cwC4 (initDomains cwC4) none = (d1C4, true) := by
  have harcs : initArcs cwC4 =
      [(zVar, xVar), (xVar, zVar), (xVar, yVar), (yVar, xVar)] := rfl
  have h1 : (revise cwC4 (initDomains cwC4) zVar xVar).2 = false := by decide
  have h2 : (revise cwC4 (initDomains cwC4) xVar zVar).2 = false := by decide
  have h3 : revise cwC4 (initDomains cwC4) xVar yVar = (d1C4, true) := by decide
  have h4 : (revise cwC4 d1C4 yVar xVar).2 = false := by decide
  have h5 : (revise cwC4 d1C4 xVar zVar).2 = false := by decide
  have henq : enqueueArcs cwC4 xVar yVar = [(xVar, zVar)] := by decide
  have hne : domOf (revise cwC4 (initDomains cwC4) xVar yVar).1 xVar ≠ [] := by
    rw [h3]
    decide
  unfold ac3
  rw [harcs]
  rw [ac3Loop_cons_noRevise cwC4 (initDomains cwC4) zVar xVar _ h1]
  rw [ac3Loop_cons_noRevise cwC4 (initDomains cwC4) xVar zVar _ h2]
  rw [ac3Loop_cons_step cwC4 (initDomains cwC4) xVar yVar _ (by rw [h3]) hne]
  rw [show (revise cwC4 (initDomains cwC4) xVar yVar).1 = d1C4 from by rw [h3]]
  rw [henq]
  rw [show ([(yVar, xVar)] ++ [(xVar, zVar)]) = [(yVar, xVar), (xVar, zVar)] from rfl]
  rw [ac3Loop_cons_noRevise cwC4 d1C4 yVar xVar _ h4]
  rw [ac3Loop_cons_noRevise cwC4 d1C4 xVar zVar _ h5]
  exact ac3Loop_nil cwC4 d1C4

/-- Claim C4:  The arcs `ac3` re-enqueues after a successful `revise(x, y)`
are `(x, z)` — directed *out of* the revised variable `x` — not the spec's
`(z, x)` into it.  On `cwC4`, after revising X against Y the loop enqueues
`(X, Z)` instead of `(Z, X)`; consequently `ac3` returns `True` leaving a
store that is not arc consistent: `AB` stays in Z's domain although no word
left in X's domain matches it at the crossing (X's own docstring promises
arc consistency). -/
theorem ac3_requeue_direction_bug :
    enqueueArcs cwC4 xVar yVar = [(xVar, zVar)] ∧
    [(xVar, zVar)] ≠ [(zVar, xVar)] ∧
    (ac3 cwC4 (initDomains cwC4) none).2 = true ∧
    ['A','B'] ∈ domOf (ac3 cwC4 (initDomains cwC4) none).1 zVar ∧
    ∀ u ∈ domOf (ac3 cwC4 (initDomains cwC4) none).1 xVar,
      ¬ (u.getD 1 ' ' = ['A','B'].getD 1 ' ') := by
  refine ⟨by decide, by decide, ?_, ?_, ?_⟩
  · rw [ac3_trace_C4]
  · rw [ac3_trace_C4]
    decide
  · rw [ac3_trace_C4]
    decide

/-- On `cwIso` `solve` does not return an assignment or `None`:
`select_unassigned_variable` evaluates `1 / len(neighbors(var))` with zero
neighbors and raises `ZeroDivisionError`. -/
theorem solve_cwIso_raises : solve cwIso = .error "ZeroDivisionError" := by
  have h1 : enforce_node_consistency cwIso (initDomains cwIso) =
      .ok (nodeConsistentDomains cwIso) := enforce_init_ok cwIso (by decide)
  unfold solve
  rw [h1]
  show backtrack cwIso (ac3 cwIso (nodeConsistentDomains cwIso) none).1 [] =
    .error "ZeroDivisionError"
  have h2 : ac3 cwIso (nodeConsistentDomains cwIso) none =
      (nodeConsistentDomains cwIso, true) := by
    unfold ac3
    rw [show initArcs cwIso = [] from rfl]
    exact ac3Loop_nil cwIso (nodeConsistentDomains cwIso)
  rw [h2]
  exact backtrack_select_error cwIso (nodeConsistentDomains cwIso) [] "ZeroDivisionError"
    (by decide) (by decide)

/-- Claim C8 counterexample:  On the isolated-slot puzzle with the empty
assignment there is exactly one unassigned slot, yet
`select_unassigned_variable` does not return it (or any slot): building its
`var_list` entry computes `1/len(neighbors) = 1/0` and raises
`ZeroDivisionError`. -/
theorem select_iso_counterexample :
    (cwIso.vars.filter (fun v => !(aHas ([] : Assign) v))).length = 1 ∧
    select_unassigned_variable cwIso (initDomains cwIso) [] =
      .error "ZeroDivisionError" := by
  constructor
  · decide
  · decide

/-- Claim C8 (amended) witness:  Applying the selection theorem to `cwC4`
(three slots, each with a neighbor) and the empty assignment. -/
theorem select_unassigned_variable_spec_witness :
    ∃ var, select_unassigned_variable cwC4 (initDomains cwC4) [] = .ok var ∧
      var ∈ cwC4.vars ∧ aHas ([] : Assign) var = false ∧
      (∀ u ∈ cwC4.vars, aHas ([] : Assign) u = false →
        (domOf (initDomains cwC4) var).length ≤ (domOf (initDomains cwC4) u).length) ∧
      (∀ u ∈ cwC4.vars, aHas ([] : Assign) u = false →
        (domOf (initDomains cwC4) u).length = (domOf (initDomains cwC4) var).length →
        (neighbors cwC4 u).length ≤ (neighbors cwC4 var).length) :=
  select_unassigned_variable_spec cwC4 (initDomains cwC4) [] (by decide) (by decide)

theorem domOf_map_ne_nil_mem (vs : List Variable) (g : Variable → List Word) (v : Variable)
    (h : domOf (vs.map (fun u => (u, g u))) v ≠ []) : v ∈ vs := by
  induction vs with
  | nil => simp [domOf, List.find?] at h
  | cons u vs ih =>
      by_cases huv : u = v
      · subst huv
        exact List.mem_cons_self u vs
      · rw [List.map_cons] at h
        unfold domOf at h ih
        rw [List.find?_cons] at h
        have hd : (decide ((u, g u).1 = v)) = false := by simp [huv]
        rw [hd] at h
        have h' : (match List.find? (fun p => decide (p.1 = v)) (vs.map (fun u => (u, g u))) with
            | some p => p.2
            | none => ([] : List Word)) ≠ [] := h
        exact List.mem_cons_of_mem u (ih h')

theorem assignment_complete_false_of (cw : Crossword) (a : Assign) (v : Variable)
    (hv : v ∈ cw.vars) (hun : aHas a v = false) :
    assignment_complete cw a = false := by
  cases hc : assignment_complete cw a with
  | false => rfl
  | true =>
      unfold assignment_complete at hc
      rw [List.all_eq_true] at hc
      rw [hc v hv] at hun
      cases hun

theorem order_domain_values_empty (cw : Crossword) (doms : Domains) (var : Variable)
    (a : Assign) (hdom : domOf doms var = []) :
    order_domain_values cw doms var a = [] := by
  unfold order_domain_values
  rw [hdom]
  rfl

/-- Claim C2 (amended):  When AC-3 (run by `solve` on the node-consistent
store) reports infeasibility, and every slot has at least one neighbor,
`solve` returns the no-solution indicator `None`.  However, backtracking is
*not* skipped: `solve` discards `ac3`'s return value and invokes
`backtrack` on the pruned store (second conjunct) — the search returns
`None` only because the selected empty-domain slot offers no candidate
values. -/
theorem solve_none_of_ac3_false (cw : Crossword) (hwf : WF cw)
    (hdeg : ∀ v ∈ cw.vars, neighbors cw v ≠ [])
    (hfl : (ac3 cw (nodeConsistentDomains cw) none).2 = false) :
    solve cw = .ok none ∧
      solve cw = backtrack cw (ac3 cw (nodeConsistentDomains cw) none).1 [] := by
  have h1 : enforce_node_consistency cw (initDomains cw) = .ok (nodeConsistentDomains cw) :=
    enforce_init_ok cw hwf.2.1
  set d2 := (ac3 cw (nodeConsistentDomains cw) none).1 with hd2
  have hsolve : solve cw = backtrack cw d2 [] := by
    unfold solve
    rw [h1]
  obtain ⟨v, hv1, hv2⟩ : ∃ v, domOf d2 v = [] ∧ domOf (nodeConsistentDomains cw) v ≠ [] := by
    have := ac3Loop_false_empty cw (nodeConsistentDomains cw) (initArcs cw) hfl
    exact this
  have hvmem : v ∈ cw.vars := by
    apply domOf_map_ne_nil_mem cw.vars
      (fun u => cw.words.filter (fun w => decide (u.length = w.length))) v
    unfold nodeConsistentDomains at hv2
    exact hv2
  have hvun : aHas ([] : Assign) v = false := rfl
  have hcomp : assignment_complete cw ([] : Assign) = false :=
    assignment_complete_false_of cw [] v hvmem hvun
  have hfilter : v ∈ cw.vars.filter (fun u => !(aHas ([] : Assign) u)) := by
    rw [List.mem_filter]
    exact ⟨hvmem, by simp [hvun]⟩
  obtain ⟨var, hsel, hvarmem, hvarun, hmin, _⟩ :=
    select_unassigned_variable_spec_aux cw d2 []
      (List.ne_nil_of_mem hfilter)
      (fun u hu => by
        rw [List.mem_filter] at hu
        have := hdeg u hu.1
        intro hc
        exact this (List.eq_nil_of_length_eq_zero hc))
  have hvar0 : domOf d2 var = [] := by
    have := hmin v hvmem hvun
    rw [hv1] at this
    simp at this
    exact this
  have hbt : backtrack cw d2 [] = .ok none := by
    rw [backtrack_step cw d2 [] var hcomp hsel]
    rw [order_domain_values_empty cw d2 var [] hvar0]
    exact tryValues_nil ..
  exact ⟨hsolve.trans hbt, hsolve⟩

theorem ac3_trace_AB : ac3 cwAB (nodeConsistentDomains cwAB) none = (dABempty, false) := by
  unfold ac3
  rw [show initArcs cwAB = [(aVar, bVar), (bVar, aVar)] from rfl]
  rw [ac3Loop_cons_empty cwAB (nodeConsistentDomains cwAB) aVar bVar _ (by decide) (by decide)]
  rw [show (revise cwAB (nodeConsistentDomains cwAB) aVar bVar).1 = dABempty from by decide]

theorem ac3_trace_ABC : ac3 cwABC (nodeConsistentDomains cwABC) none = (dABCempty, false) := by
  unfold ac3
  rw [show initArcs cwABC = [(aVar, bVar), (bVar, aVar)] from rfl]
  rw [ac3Loop_cons_empty cwABC (nodeConsistentDomains cwABC) aVar bVar _ (by decide) (by decide)]
  rw [show (revise cwABC (nodeConsistentDomains cwABC) aVar bVar).1 = dABCempty from by decide]

/-- Claim C2 counterexample:  On `cwABC`, AC-3 detects infeasibility (returns
`False`): A's domain empties.  But `solve` does not return the no-solution
indicator: it proceeds into `backtrack` (discarding `ac3`'s result) and
raises `ZeroDivisionError` while selecting a variable, because the isolated
slot C has no neighbors. -/
theorem solve_not_none_after_ac3_false :
    (enforce_node_consistency cwABC (initDomains cwABC)).map
      (fun d1 => (ac3 cwABC d1 none).2) = .ok false ∧
    solve cwABC = .error "ZeroDivisionError" := by
  have h1 : enforce_node_consistency cwABC (initDomains cwABC) =
      .ok (nodeConsistentDomains cwABC) := enforce_init_ok cwABC (by decide)
  constructor
  · rw [h1]
    show Except.ok ((ac3 cwABC (nodeConsistentDomains cwABC) none).2) = .ok false
    rw [ac3_trace_ABC]
  · unfold solve
    rw [h1]
    show backtrack cwABC (ac3 cwABC (nodeConsistentDomains cwABC) none).1 [] =
      .error "ZeroDivisionError"
    rw [show (ac3 cwABC (nodeConsistentDomains cwABC) none).1 = dABCempty from by
      rw [ac3_trace_ABC]]
    exact backtrack_select_error cwABC dABCempty [] "ZeroDivisionError"
      (by decide) (by decide)

/-- Claim C2 (amended) witness:  On `cwAB` — where AC-3 fails and every slot
has a neighbor — `solve` returns `None`, via the invocation of `backtrack`. -/
theorem solve_none_of_ac3_false_witness :
    solve cwAB = .ok none ∧
      solve cwAB = backtrack cwAB (ac3 cwAB (nodeConsistentDomains cwAB) none).1 [] :=
  solve_none_of_ac3_false cwAB (by decide) (by decide) (by rw [ac3_trace_AB])

/-- Claim C3:  The solver does not always terminate with one of the two
ordinary return values: on the spec's own scenario — a single isolated slot
of length 4 with vocabulary `{WORD, TREE, CODE}`, where the claim expects a
complete assignment — `solve` raises `ZeroDivisionError` (from
`1/len(self.crossword.neighbors(var))` in `select_unassigned_variable`). -/
theorem solve_iso_zerodivision : solve cwIso = .error "ZeroDivisionError" :=
  solve_cwIso_raises

theorem mem_keys_of_mem (a : Assign) (p : Variable × Word) (hp : p ∈ a) :
    aHas a p.1 = true := by
  unfold aHas alookup
  have : (a.find? (fun q => decide (q.1 = p.1))).isSome := by
    rw [List.find?_isSome]
    exact ⟨p, hp, by simp⟩
  cases hf : a.find? (fun q => decide (q.1 = p.1)) with
  | none => rw [hf] at this; cases this
  | some q => simp

theorem keysNodup_append (a : Assign) (v : Variable) (w : Word)
    (hnd : keysNodup a) (hun : aHas a v = false) : keysNodup (a ++ [(v, w)]) := by
  unfold keysNodup at *
  rw [List.map_append]
  rw [List.nodup_append]
  refine ⟨hnd, List.nodup_singleton _, ?_⟩
  intro u hu hu2
  simp at hu2
  subst hu2
  rcases List.mem_map.mp hu with ⟨p, hp, hpe⟩
  have := mem_keys_of_mem a p hp
  rw [hpe] at this
  rw [this] at hun
  cases hun

theorem extendsA_refl (a : Assign) : ExtendsA a a := fun _ _ h => h

theorem extendsA_dinsert_of (s a : Assign) (var : Variable) (val : Word)
    (hext : ExtendsA s a) (hvar : alookup s var = some val) :
    ExtendsA s (dinsert a var val) := by
  intro u w hu
  by_cases huv : u = var
  · subst huv
    rw [dinsert_lookup_self] at hu
    injection hu with h2
    rw [← h2]
    exact hvar
  · rw [dinsert_lookup_ne a var u val huv] at hu
    exact hext u w hu

theorem extendsA_of_dinsert (s a : Assign) (var : Variable) (val : Word)
    (hun : aHas a var = false) (hext : ExtendsA s (dinsert a var val)) : ExtendsA s a := by
  intro u w hu
  apply hext u w
  by_cases huv : u = var
  · subst huv
    unfold aHas at hun
    rw [hu] at hun
    cases hun
  · rw [dinsert_lookup_ne a var u val huv]
    exact hu

theorem specConsistent_of_entries_sub (cw : Crossword) (s a : Assign)
    (hsub : ∀ p ∈ a, p ∈ s) (hspec : SpecConsistent cw s) : SpecConsistent cw a := by
  obtain ⟨h1, h2, h3⟩ := hspec
  exact ⟨fun p hp => h1 p (hsub p hp),
    fun p hp q hq => h2 p (hsub p hp) q (hsub q hq),
    fun p hp q hq => h3 p (hsub p hp) q (hsub q hq)⟩

theorem entries_sub_of_extends (s a : Assign) (hnd : keysNodup a) (hext : ExtendsA s a) :
    ∀ p ∈ a, p ∈ s := by
  intro p hp
  have h1 : alookup a p.1 = some p.2 := alookup_of_mem_nodup a p.1 p.2 hnd hp
  have h2 := hext p.1 p.2 h1
  have := alookup_mem h2
  exact this

theorem count_zero_complete (cw : Crossword) (a : Assign) (h : count cw a = 0) :
    assignment_complete cw a = true := by
  unfold count at h
  rw [List.length_eq_zero] at h
  unfold assignment_complete
  rw [List.all_eq_true]
  intro v hv
  by_cases hc : aHas a v = true
  · exact hc
  · exfalso
    have : v ∈ cw.vars.filter (fun u => !(aHas a u)) := by
      rw [List.mem_filter]
      exact ⟨hv, by simp [Bool.eq_false_iff.mpr hc]⟩
    rw [h] at this
    cases this

theorem incomplete_exists_unassigned (cw : Crossword) (a : Assign)
    (h : assignment_complete cw a = false) : ∃ v ∈ cw.vars, aHas a v = false := by
  unfold assignment_complete at h
  by_contra hc
  push_neg at hc
  have : cw.vars.all (fun v => aHas a v) = true := by
    rw [List.all_eq_true]
    intro v hv
    rcases Bool.dichotomy (aHas a v) with h1 | h1
    · exact absurd h1 (hc v hv)
    · exact h1
  rw [this] at h
  cases h

/-- A single `revise` never removes a value used by a complete consistent
assignment: the assignment's value for `y` supports its value for `x` at
the crossing. -/
theorem revise_preserves_solution (cw : Crossword) (doms : Domains) (x y : Variable)
    (s : Assign) (hy : y ∈ cw.vars)
    (hcomp : CompleteA cw s) (hcross : CrossOK cw s) (hnd : keysNodup s)
    (hin : ∀ p ∈ s, p.2 ∈ domOf doms p.1) :
    ∀ p ∈ s, p.2 ∈ domOf (revise cw doms x y).1 p.1 := by
  intro p hp
  rcases revise_cases cw doms x y with ⟨_, h1, _⟩ | ⟨i, j, hov, hlt, heq⟩
  · rw [h1]
    exact hin p hp
  · rw [heq]
    by_cases hpx : p.1 = x
    · have hne : domOf doms x ≠ [] := by
        intro hnil; rw [hnil] at hlt; simp at hlt
      rw [hpx, domOf_updD_self doms x _ (domOf_ne_nil_isSome doms x hne)]
      rw [List.mem_filter]
      refine ⟨by rw [← hpx]; exact hin p hp, ?_⟩
      have hyw := hcomp y hy
      rw [aHas_true_iff] at hyw
      obtain ⟨wy, hwy⟩ := hyw
      have hymem : (y, wy) ∈ s := alookup_mem hwy
      have hsup : wy ∈ domOf doms y := hin (y, wy) hymem
      have hagree := hcross p hp (y, wy) hymem
      unfold crossPairOK at hagree
      rw [hpx, hov] at hagree
      unfold supported
      rw [List.any_eq_true]
      refine ⟨wy, hsup, ?_⟩
      rw [decide_eq_true_eq] at hagree ⊢
      exact hagree.symm
    · rw [domOf_updD_ne doms x p.1 _ hpx]
      exact hin p hp

/-- AC-3 never removes a value used by a complete consistent assignment. -/
theorem ac3Loop_preserves_solution (cw : Crossword) (doms : Domains)
    (arcs : List (Variable × Variable)) (s : Assign)
    (hcomp : CompleteA cw s) (hcross : CrossOK cw s) (hnd : keysNodup s) :
    (∀ e ∈ arcs, e.2 ∈ cw.vars) → (∀ p ∈ s, p.2 ∈ domOf doms p.1) →
      ∀ p ∈ s, p.2 ∈ domOf (ac3Loop cw doms arcs).1 p.1 := by
  induction doms, arcs using ac3Loop.induct cw with
  | case1 doms =>
      intro _ hin p hp
      rw [ac3Loop_nil]
      exact hin p hp
  | case2 doms x y rest rd htrue hemp =>
      intro harcs hin p hp
      rw [ac3Loop_cons_empty cw doms x y rest htrue (List.isEmpty_iff.mp hemp)]
      exact revise_preserves_solution cw doms x y s
        (harcs (x, y) (List.mem_cons_self _ rest)) hcomp hcross hnd hin p hp
  | case3 doms x y rest rd htrue hne ih =>
      intro harcs hin p hp
      rw [ac3Loop_cons_step cw doms x y rest htrue
        (fun hc => hne (List.isEmpty_iff.mpr hc))]
      apply ih
      · intro e he
        rcases List.mem_append.mp he with h1 | h1
        · exact harcs e (List.mem_cons_of_mem _ h1)
        · unfold enqueueArcs at h1
          rcases List.mem_map.mp h1 with ⟨z, hz, hze⟩
          rw [← hze]
          have := (List.mem_filter.mp hz).1
          rw [mem_neighbors_iff] at this
          exact this.1
      · exact revise_preserves_solution cw doms x y s
          (harcs (x, y) (List.mem_cons_self _ rest)) hcomp hcross hnd hin
      · exact hp
  | case4 doms x y rest rd hfalse ih =>
      intro harcs hin p hp
      rw [ac3Loop_cons_noRevise cw doms x y rest (Bool.not_eq_true _ ▸ hfalse)]
      exact ih (fun e he => harcs e (List.mem_cons_of_mem _ he)) hin p hp

/-- Total correctness of the backtracking search over a pruned Domain
Store: under the search invariant it returns (without raising) either a
complete consistent assignment extending the current one, or `None` when no
such completion exists. -/
theorem backtrack_correct (cw : Crossword) (doms : Domains) (hwf : WF cw)
    (hdeg : ∀ v ∈ cw.vars, neighbors cw v ≠ [])
    (hlen : ∀ v ∈ cw.vars, ∀ w ∈ domOf doms v, v.length = w.length) :
    ∀ n, ∀ a, count cw a ≤ n → InvA cw doms a →
      ∃ res, backtrack cw doms a = .ok res ∧
        ((∃ r, res = some r ∧ SolutionW cw doms r ∧ ExtendsA r a) ∨
         (res = none ∧ ∀ s, SolutionW cw doms s → ¬ ExtendsA s a)) := by
  intro n
  induction n using Nat.strong_induction_on with
  | _ n ih =>
  intro a hcount hinv
  obtain ⟨hnd, hmem, hspec⟩ := hinv
  by_cases hcomp : assignment_complete cw a = true
  · refine ⟨some a, backtrack_complete cw doms a hcomp, Or.inl ⟨a, rfl, ?_, extendsA_refl a⟩⟩
    exact ⟨(assignment_complete_iff cw a).mp hcomp, hspec, hmem, hnd⟩
  · have hcompF : assignment_complete cw a = false := Bool.eq_false_iff.mpr hcomp
    obtain ⟨v, hv1, hv2⟩ := incomplete_exists_unassigned cw a hcompF
    have hfilter : v ∈ cw.vars.filter (fun u => !(aHas a u)) := by
      rw [List.mem_filter]
      exact ⟨hv1, by simp [hv2]⟩
    obtain ⟨var, hsel, hvarmem, hvarun, _, _⟩ :=
      select_unassigned_variable_spec_aux cw doms a
        (List.ne_nil_of_mem hfilter)
        (fun u hu => by
          rw [List.mem_filter] at hu
          intro hc
          exact hdeg u hu.1 (List.eq_nil_of_length_eq_zero hc))
    have hperm := (order_domain_values_spec_aux cw doms var a).2.1
    have hlt := count_lt_of_select cw doms a var hsel
    have loop : ∀ values, (∀ val ∈ values, val ∈ domOf doms var) →
        ∃ res, tryValues cw doms a var hlt values = .ok res ∧
          ((∃ r, res = some r ∧ SolutionW cw doms r ∧ ExtendsA r a) ∨
           (res = none ∧ ∀ s, SolutionW cw doms s → ExtendsA s a →
              ∀ w, alookup s var = some w → w ∉ values)) := by
      intro values
      induction values with
      | nil =>
          intro _
          exact ⟨none, tryValues_nil cw doms a var hlt,
            Or.inr ⟨rfl, fun s _ _ w _ hw => List.not_mem_nil w hw⟩⟩
      | cons val rest ihl =>
          intro hvals
          have hvaldom : val ∈ domOf doms var := hvals val (List.mem_cons_self val rest)
          have ha'app : dinsert a var val = a ++ [(var, val)] :=
            dinsert_fresh a var val hvarun
          have ha'nd : keysNodup (dinsert a var val) :=
            ha'app ▸ keysNodup_append a var val hnd hvarun
          have ha'mem : ∀ p ∈ dinsert a var val, p.1 ∈ cw.vars ∧ p.2 ∈ domOf doms p.1 := by
            rw [ha'app]
            intro p hp
            rcases List.mem_append.mp hp with h1 | h1
            · exact hmem p h1
            · simp at h1
              rw [h1]
              exact ⟨hvarmem, hvaldom⟩
          have ha'len : LengthsOK (dinsert a var val) := by
            intro p hp
            rcases ha'mem p hp with ⟨h1, h2⟩
            exact hlen p.1 h1 p.2 h2
          have ha'keys : ∀ p ∈ dinsert a var val, p.1 ∈ cw.vars :=
            fun p hp => (ha'mem p hp).1
          obtain ⟨b, hb0⟩ := consistentLoop_no_error cw (dinsert a var val) hwf ha'len
            (dinsert a var val) (fun p hp => hp)
          have hb : consistent cw (dinsert a var val) = .ok b := hb0
          have hbiff : b = true ↔ SpecConsistent cw (dinsert a var val) := by
            constructor
            · intro hbt
              exact (consistent_true_iff_spec_aux cw (dinsert a var val) hwf ha'keys ha'nd).mp
                (hbt ▸ hb)
            · intro hsp
              have h2 := (consistent_true_iff_spec_aux cw (dinsert a var val) hwf
                ha'keys ha'nd).mpr hsp
              have h3 := hb.symm.trans h2
              injection h3
          cases b with
          | false =>
              have hnospec : ¬ SpecConsistent cw (dinsert a var val) := by
                intro hsp
                have := hbiff.mpr hsp
                cases this
              obtain ⟨res, hres, hdisj⟩ :=
                ihl (fun u hu => hvals u (List.mem_cons_of_mem val hu))
              refine ⟨res, ?_, ?_⟩
              · rw [tryValues_cons_false cw doms a var hlt val rest hb]
                exact hres
              · rcases hdisj with hl | ⟨hne2, hr⟩
                · exact Or.inl hl
                · refine Or.inr ⟨hne2, ?_⟩
                  intro s hssol hsext w hsw hwmem
                  rcases List.mem_cons.mp hwmem with he | hm
                  · rw [he] at hsw
                    have hsext' : ExtendsA s (dinsert a var val) :=
                      extendsA_dinsert_of s a var val hsext hsw
                    have hsub := entries_sub_of_extends s (dinsert a var val) ha'nd hsext'
                    exact hnospec (specConsistent_of_entries_sub cw s (dinsert a var val)
                      hsub hssol.2.1)
                  · exact hr s hssol hsext w hsw hm
          | true =>
              have hspec' : SpecConsistent cw (dinsert a var val) := hbiff.mp rfl
              have hinv' : InvA cw doms (dinsert a var val) := ⟨ha'nd, ha'mem, hspec'⟩
              have hcnt : count cw (dinsert a var val) < n :=
                lt_of_lt_of_le (hlt val) hcount
              obtain ⟨res', hres', hdisj'⟩ :=
                ih (count cw (dinsert a var val)) hcnt (dinsert a var val) le_rfl hinv'
              rcases hdisj' with ⟨r, hreq, hrsol, hrext⟩ | ⟨hreq, hnos⟩
              · subst hreq
                have hrvar : alookup r var = some val :=
                  hrext var val (dinsert_lookup_self a var val)
                have hrne : r ≠ [] := by
                  intro hc
                  rw [hc, alookup_nil] at hrvar
                  cases hrvar
                have hremp : r.isEmpty = false := by
                  rw [Bool.eq_false_iff]
                  intro hc
                  exact hrne (List.isEmpty_iff.mp hc)
                have htr : truthy (some r) = true := by
                  show (!r.isEmpty) = true
                  rw [hremp]
                  rfl
                refine ⟨some r, ?_, Or.inl ⟨r, rfl, hrsol, ?_⟩⟩
                · rw [tryValues_cons_true cw doms a var hlt val rest (some r) hb hres',
                    if_pos htr]
                · exact extendsA_of_dinsert r a var val hvarun hrext
              · subst hreq
                obtain ⟨res, hres, hdisj⟩ :=
                  ihl (fun u hu => hvals u (List.mem_cons_of_mem val hu))
                refine ⟨res, ?_, ?_⟩
                · rw [tryValues_cons_true cw doms a var hlt val rest none hb hres',
                    if_neg (by rw [show truthy none = false from rfl]; exact Bool.false_ne_true)]
                  exact hres
                · rcases hdisj with hl | ⟨hne2, hr⟩
                  · exact Or.inl hl
                  · refine Or.inr ⟨hne2, ?_⟩
                    intro s hssol hsext w hsw hwmem
                    rcases List.mem_cons.mp hwmem with he | hm
                    · rw [he] at hsw
                      have hsext' : ExtendsA s (dinsert a var val) :=
                        extendsA_dinsert_of s a var val hsext hsw
                      exact hnos s hssol hsext'
                    · exact hr s hssol hsext w hsw hm
    obtain ⟨res, hres, hdisj⟩ := loop (order_domain_values cw doms var a)
      (fun u hu => hperm.mem_iff.mp hu)
    refine ⟨res, ?_, ?_⟩
    · rw [backtrack_step cw doms a var hcompF hsel]
      exact hres
    · rcases hdisj with hl | ⟨hne2, hr⟩
      · exact Or.inl hl
      · refine Or.inr ⟨hne2, ?_⟩
        intro s hssol hsext
        obtain ⟨hscomp, hsspec, hsmem, hsnd⟩ := hssol
        have hsvar := hscomp var hvarmem
        rw [aHas_true_iff] at hsvar
        obtain ⟨w, hw⟩ := hsvar
        have hwdom : w ∈ domOf doms var := (hsmem (var, w) (alookup_mem hw)).2
        have hwodv : w ∈ order_domain_values cw doms var a := hperm.mem_iff.mpr hwdom
        exact hr s ⟨hscomp, hsspec, hsmem, hsnd⟩ hsext w hw hwodv

/-- Claim C1 (amended):  For every well-formed puzzle with a non-empty
vocabulary in which every slot has at least one neighbor, run the solver
pipeline (node consistency, then AC-3, then `backtrack` from the empty
assignment — which is exactly `solve`): if some complete assignment over
the vocabulary satisfies the section 3 invariants, the search returns such
an assignment; if none exists, it returns the no-solution indicator
`None`.  The search explores finitely many branches: `backtrack` is defined
by well-founded recursion on (unassigned slots, remaining candidate
values). -/
theorem solve_correct (cw : Crossword) (hwf : WF cw) (hvocab : cw.words ≠ [])
    (hdeg : ∀ v ∈ cw.vars, neighbors cw v ≠ []) :
    ((∃ s, VocabSolution cw s) → ∃ r, solve cw = .ok (some r) ∧ VocabSolution cw r) ∧
    ((¬ ∃ s, VocabSolution cw s) → solve cw = .ok none) := by
  have h1 : enforce_node_consistency cw (initDomains cw) = .ok (nodeConsistentDomains cw) :=
    enforce_init_ok cw hwf.2.1
  have hsolve : solve cw = backtrack cw (ac3 cw (nodeConsistentDomains cw) none).1 [] := by
    unfold solve
    rw [h1]
  have hd2sub : ∀ v w, w ∈ domOf (ac3 cw (nodeConsistentDomains cw) none).1 v →
      w ∈ domOf (nodeConsistentDomains cw) v := by
    intro v w hw
    exact ac3Loop_subset cw (nodeConsistentDomains cw) (initArcs cw) v w hw
  have hd1char : ∀ v ∈ cw.vars, domOf (nodeConsistentDomains cw) v =
      cw.words.filter (fun w => decide (v.length = w.length)) :=
    fun v hv => domOf_map_mem cw.vars _ v hv
  have hlen2 : ∀ v ∈ cw.vars, ∀ w ∈ domOf (ac3 cw (nodeConsistentDomains cw) none).1 v,
      v.length = w.length := by
    intro v hv w hw
    have h2 := hd2sub v w hw
    rw [hd1char v hv] at h2
    exact of_decide_eq_true (List.mem_filter.mp h2).2
  have hword2 : ∀ v ∈ cw.vars, ∀ w ∈ domOf (ac3 cw (nodeConsistentDomains cw) none).1 v,
      w ∈ cw.words := by
    intro v hv w hw
    have h2 := hd2sub v w hw
    rw [hd1char v hv] at h2
    exact (List.mem_filter.mp h2).1
  have hbridge1 : ∀ r, SolutionW cw (ac3 cw (nodeConsistentDomains cw) none).1 r →
      VocabSolution cw r := by
    rintro r ⟨hrc, hrs, hrm, hrn⟩
    refine ⟨hrc, hrs, ?_, hrn⟩
    intro p hp
    exact ⟨(hrm p hp).1, hword2 p.1 (hrm p hp).1 p.2 (hrm p hp).2⟩
  have hbridge2 : ∀ s, VocabSolution cw s →
      SolutionW cw (ac3 cw (nodeConsistentDomains cw) none).1 s := by
    rintro s ⟨hscomp, hsspec, hsmem, hsnd⟩
    refine ⟨hscomp, hsspec, ?_, hsnd⟩
    intro p hp
    refine ⟨(hsmem p hp).1, ?_⟩
    have hin1 : ∀ q ∈ s, q.2 ∈ domOf (nodeConsistentDomains cw) q.1 := by
      intro q hq
      rw [hd1char q.1 (hsmem q hq).1, List.mem_filter]
      exact ⟨(hsmem q hq).2, decide_eq_true (hsspec.1 q hq)⟩
    have harcs : ∀ e ∈ initArcs cw, e.2 ∈ cw.vars := by
      intro e he
      unfold initArcs at he
      rcases List.mem_map.mp he with ⟨en, hen, hee⟩
      have h3 := hwf.2.2.2 en hen
      rw [← hee]
      exact h3.2.1
    exact ac3Loop_preserves_solution cw (nodeConsistentDomains cw) (initArcs cw) s
      hscomp hsspec.2.2 hsnd harcs hin1 p hp
  have hinv0 : InvA cw (ac3 cw (nodeConsistentDomains cw) none).1 [] :=
    ⟨List.nodup_nil, fun p hp => absurd hp (List.not_mem_nil p),
      fun p hp => absurd hp (List.not_mem_nil p),
      fun p hp => absurd hp (List.not_mem_nil p),
      fun p hp => absurd hp (List.not_mem_nil p)⟩
  obtain ⟨res, hres, hdisj⟩ :=
    backtrack_correct cw (ac3 cw (nodeConsistentDomains cw) none).1 hwf hdeg hlen2
      (count cw []) [] le_rfl hinv0
  constructor
  · rintro ⟨s, hs⟩
    rcases hdisj with ⟨r, hreq, hrsol, _⟩ | ⟨hreq, hnos⟩
    · refine ⟨r, ?_, hbridge1 r hrsol⟩
      rw [hsolve, hres, hreq]
    · exfalso
      exact hnos s (hbridge2 s hs)
        (fun v w h => by rw [alookup_nil] at h; cases h)
  · intro hnone
    rcases hdisj with ⟨r, hreq, hrsol, _⟩ | ⟨hreq, _⟩
    · exact absurd ⟨r, hbridge1 r hrsol⟩ hnone
    · rw [hsolve, hres, hreq]

/-- Claim C1 counterexample:  The claim as stated fails on the code: on the
(well-formed, non-empty-vocabulary) isolated-slot puzzle a satisfying
complete assignment exists — `{slot: WORD}` — yet the solver neither
returns a solution nor `None`: it raises `ZeroDivisionError`. -/
theorem solve_misses_existing_solution :
    VocabSolution cwIso [(isoVar, ['W','O','R','D'])] ∧
    solve cwIso = .error "ZeroDivisionError" :=
  ⟨by decide, solve_cwIso_raises⟩

/-- Claim C1 (amended) witness:  On the CAT/COW crossing scenario a solution
exists (`{A: CAT, B: COW}`), so the solver returns a valid solution. -/
theorem solve_correct_witness :
    ∃ r, solve cwCATCOW = .ok (some r) ∧ VocabSolution cwCATCOW r :=
  (solve_correct cwCATCOW (by decide) (by decide) (by decide)).1
    ⟨[(aVar, ['C','A','T']), (bVar, ['C','O','W'])], by decide⟩
